import Mathlib

/-!
Verification of the translate-proxy translation pipeline.

JavaScript strings are modelled as `List Char` (UTF-16 texts restricted to
Unicode scalar values; where a JS operation works on UTF-16 code units —
`charCodeAt`, `String.length`-indexed hashing — the code-unit view is made
explicit).  JS `Map` objects are modelled as association lists with
insertion-order `set` semantics.  Promise-returning functions are modelled as
pure functions; a rejected promise is an `Except.error`; fire-and-forget
`put` calls are returned as an explicit list of issued writes.
-/

set_option maxRecDepth 20000

/-- JS strings, as lists of characters. -/
abbrev Str := List Char

/-- The whitespace class used by JS `String.prototype.trim`. -/
def isJsSpace (c : Char) : Bool :=
  c == ' ' || c == '\t' || c == '\n' || c == '\r' ||
  c == Char.ofNat 0x0b || c == Char.ofNat 0x0c || c == Char.ofNat 0xa0 ||
  c == Char.ofNat 0xfeff || c == Char.ofNat 0x2028 || c == Char.ofNat 0x2029

/-- Left part of JS `trim`. -/
def jsTrimLeft (s : Str) : Str := s.dropWhile isJsSpace

/-- JS `String.prototype.trim`: drop whitespace from both ends. -/
def jsTrim (s : Str) : Str :=
  ((jsTrimLeft s).reverse.dropWhile isJsSpace).reverse

/-- First-occurrence deduplication, as performed by `[...new Set(xs)]`. -/
def dedupFirstAux {α : Type} [DecidableEq α] (seen : List α) : List α → List α
  | [] => []
  | x :: xs => if x ∈ seen then dedupFirstAux seen xs else x :: dedupFirstAux (x :: seen) xs

/-- Model of `[...new Set(xs)]`: keep the first occurrence of each element. -/
def dedupFirst {α : Type} [DecidableEq α] (l : List α) : List α := dedupFirstAux [] l

/-- A JS `Map<string, string>` as an insertion-ordered association list. -/
abbrev MapSL := List (Str × Str)

/-- JS `Map.prototype.set`: overwrite in place if the key exists, else append. -/
def mapSet : MapSL → Str → Str → MapSL
  | [], k, v => [(k, v)]
  | p :: rest, k, v => if p.1 = k then (k, v) :: rest else p :: mapSet rest k v

/-- JS `Map.prototype.get`. -/
def mapLookup : MapSL → Str → Option Str
  | [], _ => none
  | p :: rest, k => if p.1 = k then some p.2 else mapLookup rest k

/-- The keys of a map, in insertion order. -/
def mapKeys (m : MapSL) : List Str := m.map Prod.fst

/-- Japanese character test: Hiragana U+3040–309F, Katakana U+30A0–30FF,
Kanji U+4E00–9FFF (the class of `JAPANESE_REGEX` / `containsJapanese`). -/
def isJapaneseChar (c : Char) : Bool :=
  (0x3040 ≤ c.toNat && c.toNat ≤ 0x309f) ||
  (0x30a0 ≤ c.toNat && c.toNat ≤ 0x30ff) ||
  (0x4e00 ≤ c.toNat && c.toNat ≤ 0x9fff)

/-- Model of `containsJapanese` from `html-utils.ts` / the extractor services. -/
def containsJapanese (s : Str) : Bool := s.any isJapaneseChar

/-- JS `String.prototype.toLowerCase` (as far as used: ASCII error messages). -/
def strToLower (s : Str) : Str := s.map Char.toLower

/-- Scan for the first occurrence of `pat`; return the split around it.
`acc` accumulates the scanned prefix in reverse. -/
def findSplitGo (pat : Str) : Str → Str → Option (Str × Str)
  | acc, s =>
    if pat.isPrefixOf s then some (acc.reverse, s.drop pat.length)
    else
      match s with
      | [] => none
      | c :: r => findSplitGo pat (c :: acc) r

/-- Split `s` around the first occurrence of `pat`, if any. -/
def findSplit (s pat : Str) : Option (Str × Str) := findSplitGo pat [] s

/-- JS `String.prototype.includes`. -/
def strContains (s pat : Str) : Bool := (findSplit s pat).isSome

/-- ECMAScript GetSubstitution for a string `searchValue` (no capture groups):
`$$`, `$&`, dollar-backtick (preceding portion) and dollar-quote (following
portion) are active; everything else is literal. -/
def getSubstitution (matched before after : Str) : Str → Str
  | [] => []
  | c :: rest =>
    if c = '$' then
      match rest with
      | [] => ['$']
      | d :: rest2 =>
        if d = '$' then '$' :: getSubstitution matched before after rest2
        else if d = '&' then matched ++ getSubstitution matched before after rest2
        else if d = Char.ofNat 96 then before ++ getSubstitution matched before after rest2
        else if d = '\'' then after ++ getSubstitution matched before after rest2
        else '$' :: getSubstitution matched before after (d :: rest2)
    else c :: getSubstitution matched before after rest

/-- JS `String.prototype.replace(searchString, replacement)`: replace the
first occurrence, applying GetSubstitution to the replacement. -/
def jsReplaceFirst (s pat rep : Str) : Str :=
  match findSplit s pat with
  | some (before, after) => before ++ getSubstitution pat before after rep ++ after
  | none => s

/-- Replace every non-overlapping occurrence of the nonempty pattern
`p :: ps` by `rep`, literally (the semantics of `split(pat).join(rep)`). -/
def splitJoinGo (p : Char) (ps rep : Str) : Str → Str
  | [] => []
  | c :: rest =>
    if (p :: ps).isPrefixOf (c :: rest) then
      rep ++ splitJoinGo p ps rep ((c :: rest).drop (p :: ps).length)
    else c :: splitJoinGo p ps rep rest
termination_by s => s.length
decreasing_by
  · simp [List.length_drop]; omega
  · simp

/-- JS `s.split(pat).join(rep)`.  For the empty pattern, `split('')` yields
the character array and `join` interleaves `rep`. -/
def jsSplitJoin (s pat rep : Str) : Str :=
  match pat with
  | [] =>
    match s with
    | [] => []
    | c :: rest => c :: rest.flatMap (fun d => rep ++ [d])
  | p :: ps => splitJoinGo p ps rep s

/-- Global regex replacement for a literal nonempty pattern, with
GetSubstitution applied at each match (`seen` is the reversed prefix of the
original string already scanned). -/
def jsRegexReplaceAllGo (p : Char) (ps rep : Str) : Str → Str → Str
  | _, [] => []
  | seen, c :: rest =>
    if (p :: ps).isPrefixOf (c :: rest) then
      getSubstitution (p :: ps) seen.reverse ((c :: rest).drop (p :: ps).length) rep
        ++ jsRegexReplaceAllGo p ps rep ((p :: ps).reverse ++ seen) ((c :: rest).drop (p :: ps).length)
    else c :: jsRegexReplaceAllGo p ps rep (c :: seen) rest
termination_by _ s => s.length
decreasing_by
  · simp [List.length_drop]; omega
  · simp

/-- Global regex replacement for the empty pattern (matches at every
position, as JS `new RegExp('', 'g')` does). -/
def jsRegexReplaceAllEmpty (rep : Str) : Str → Str → Str
  | seen, [] => getSubstitution [] seen.reverse [] rep
  | seen, c :: rest =>
    getSubstitution [] seen.reverse (c :: rest) rep ++ c :: jsRegexReplaceAllEmpty rep (c :: seen) rest

/-- JS `s.replace(new RegExp(escapeRegex(pat), 'g'), rep)`: since the pattern
is regex-escaped before compilation, it matches literally. -/
def jsRegexReplaceAll (s pat rep : Str) : Str :=
  match pat with
  | [] => jsRegexReplaceAllEmpty rep [] s
  | p :: ps => jsRegexReplaceAllGo p ps rep [] s

/-- Hexadecimal digit characters, lowercase (JS `Number.prototype.toString(16)`). -/
def hexDigitChar (n : Nat) : Char :=
  if n < 10 then Char.ofNat (48 + n) else Char.ofNat (87 + n)

/-- Four-digit zero-padded lowercase hex, `code.toString(16).padStart(4, '0')`
for `code < 0x10000`. -/
def hex4 (n : Nat) : Str :=
  [hexDigitChar (n / 4096 % 16), hexDigitChar (n / 256 % 16),
   hexDigitChar (n / 16 % 16), hexDigitChar (n % 16)]

/-- Digits of `n` base 16, most significant first, prepended to `acc`. -/
def natToHexGo : Nat → Str → Str
  | 0, acc => acc
  | m + 1, acc => natToHexGo ((m + 1) / 16) (hexDigitChar ((m + 1) % 16) :: acc)
termination_by m _ => m
decreasing_by
  exact Nat.lt_of_lt_of_le (Nat.div_lt_self (Nat.succ_pos m) (by omega)) (Nat.le_refl _)

/-- JS `n.toString(16)` for a natural number. -/
def natToHex (n : Nat) : Str := if n = 0 then ['0'] else natToHexGo n []

/-- Model of `charCodeAt(0)` of the one- or two-unit UTF-16 encoding of a scalar. -/
def jsCharCodeAt0 (c : Char) : Nat :=
  if c.toNat < 0x10000 then c.toNat else 0xd800 + (c.toNat - 0x10000) / 0x400

/-- UTF-16 code units of one scalar value. -/
def charUtf16 (c : Char) : List Nat :=
  if c.toNat < 0x10000 then [c.toNat]
  else [0xd800 + (c.toNat - 0x10000) / 0x400, 0xdc00 + (c.toNat - 0x10000) % 0x400]

/-- UTF-16 code units of a string (the units `charCodeAt(i)` iterates). -/
def strUtf16Units (s : Str) : List Nat := s.flatMap charUtf16

namespace OpenAITranslatorService

/-- A JS `Error` as far as the translator inspects it: its `name`, its
`message`, and (for `TranslationError`) the message of its `cause`. -/
structure JsError where
  name : Str
  message : Str
  causeMsg : Option Str := none
deriving DecidableEq, Repr

/-- Model of `isRetryableError` from `openai-translator.ts`: message-substring test
on the lowercased message. -/
def isRetryableError (e : JsError) : Bool :=
  let m := strToLower e.message
  strContains m ("rate limit".toList) || strContains m ("timeout".toList) ||
  strContains m ("429".toList) || strContains m ("500".toList) ||
  strContains m ("502".toList) || strContains m ("503".toList) ||
  strContains m ("504".toList)

/-- The `TranslationError('Empty response from OpenAI')` thrown by
`translateBatch` when the provider content is empty/null. -/
def emptyResponseError : JsError :=
  ⟨"TranslationError".toList, "Empty response from OpenAI".toList, none⟩

/-- The `TranslationError('Failed to translate texts after retries', cause)`
thrown by `translateBatchWithRetry` when fallback is disabled. -/
def retriesExhaustedError (cause : JsError) : JsError :=
  ⟨"TranslationError".toList, "Failed to translate texts after retries".toList,
   some cause.message⟩

/-- The response-mapping loop of `translateBatch`: for each input index,
take the trimmed `i`-th line if nonempty, otherwise fall back to the input
itself when `useFallback` is set, otherwise record nothing. -/
def buildBatchMap (useFallback : Bool) (lines : List Str) : List Str → Nat → MapSL → MapSL
  | [], _, acc => acc
  | t :: ts, i, acc =>
    match lines.get? i with
    | some l =>
      let tr := jsTrim l
      if tr ≠ [] then buildBatchMap useFallback lines ts (i + 1) (mapSet acc t tr)
      else if useFallback then buildBatchMap useFallback lines ts (i + 1) (mapSet acc t t)
      else buildBatchMap useFallback lines ts (i + 1) acc
    | none =>
      if useFallback then buildBatchMap useFallback lines ts (i + 1) (mapSet acc t t)
      else buildBatchMap useFallback lines ts (i + 1) acc

/-- Model of `translateBatch`, with the provider call abstracted to its outcome
`resp` (an error, or the reply content; a null/empty content throws the
empty-response `TranslationError`).  The reply is split into nonblank lines
and mapped positionally onto the batch. -/
def translateBatch (resp : Except JsError Str) (texts : List Str) (useFallback : Bool) :
    Except JsError MapSL :=
  match resp with
  | .error e => .error e
  | .ok content =>
    if content = [] then .error emptyResponseError
    else
      let translatedTexts := (content.splitOn '\n').filter (fun l => decide (jsTrim l ≠ []))
      .ok (buildBatchMap useFallback translatedTexts texts 0 [])

/-- The retry loop of `translateBatchWithRetry`: `fuel = maxRetries - attempt`
remaining retries; the loop breaks (returning the last error) on a
non-retryable error or when the attempt budget is exhausted. -/
def retryGo (prov : Nat → Except JsError Str) (texts : List Str) (useFallback : Bool) :
    Nat → Nat → Except JsError MapSL
  | attempt, fuel =>
    match translateBatch (prov attempt) texts useFallback with
    | .ok m => .ok m
    | .error e =>
      match fuel with
      | 0 => .error e
      | f + 1 => if isRetryableError e then retryGo prov texts useFallback (attempt + 1) f else .error e

/-- The fallback map built on exhausted retries: every value maps to itself. -/
def fallbackMap (texts : List Str) : MapSL :=
  texts.foldl (fun a t => mapSet a t t) []

/-- Model of `translateBatchWithRetry`: run the retry loop; on final failure return
the identity fallback map when fallback is enabled, else throw a
`TranslationError` wrapping the last error. -/
def translateBatchWithRetry (prov : Nat → Except JsError Str) (texts : List Str)
    (useFallback : Bool) (maxRetries : Nat) : Except JsError MapSL :=
  match retryGo prov texts useFallback 0 maxRetries with
  | .ok m => .ok m
  | .error e =>
    if useFallback then .ok (fallbackMap texts) else .error (retriesExhaustedError e)

/-- Chunking of the input into batches: `cap` is the remaining capacity of
the current (reversed) chunk `cur`; chunk size is `n`.  This realizes the
`for (i += batchSize) texts.slice(i, i + batchSize)` loop. -/
def chunkAux (n : Nat) : Nat → List Str → List Str → List (List Str)
  | _, cur, [] => if cur.isEmpty then [] else [cur.reverse]
  | cap, cur, x :: xs =>
    if cap ≤ 1 then (x :: cur).reverse :: chunkAux n n [] xs
    else chunkAux n (cap - 1) (x :: cur) xs

/-- Split `l` into consecutive chunks of `n` (the batch splitting loop). -/
def chunkList (n : Nat) (l : List Str) : List (List Str) := chunkAux n n [] l

/-- Extract the map from a batch outcome (total because, with fallback
enabled, batch outcomes are always `ok`). -/
def forcedResult (x : Except JsError MapSL) : MapSL :=
  match x with
  | .ok m => m
  | .error _ => []

/-- Sequential elaboration of `processWithConcurrency`: workers claim batch
indices in order and write results positionally, so the result list is the
per-index image of the batches; a rejected batch rejects the whole call. -/
def processBatches (prov : Nat → Nat → Except JsError Str) (useFallback : Bool)
    (maxRetries : Nat) : List (List Str) → Nat → Except JsError (List MapSL)
  | [], _ => .ok []
  | b :: bs, i =>
    match translateBatchWithRetry (prov i) b useFallback maxRetries with
    | .error e => .error e
    | .ok m =>
      match processBatches prov useFallback maxRetries bs (i + 1) with
      | .error e => .error e
      | .ok ms => .ok (m :: ms)

/-- The per-index batch results under fallback (used to state what
`execute` computes when no batch can reject). -/
def batchResultsList (prov : Nat → Nat → Except JsError Str) (maxRetries : Nat) :
    List (List Str) → Nat → List MapSL
  | [], _ => []
  | b :: bs, i =>
    forcedResult (translateBatchWithRetry (prov i) b true maxRetries)
      :: batchResultsList prov maxRetries bs (i + 1)

/-- Merge one batch map into the accumulated result (`translations.set` per
entry, in entry order). -/
def mergeInto (acc : MapSL) (m : MapSL) : MapSL :=
  m.foldl (fun a p => mapSet a p.1 p.2) acc

/-- Merge all batch results, batch order first, entry order within a batch. -/
def mergeMaps (ms : List MapSL) : MapSL := ms.foldl mergeInto []

/-- Model of `OpenAITranslatorService.execute`, with the provider abstracted to an
oracle `prov batchIndex attempt` giving each call's outcome (the prompt and
context sample only shape the oracle's replies).  Batch size is 20; batches
run under the worker pool and their maps are merged in order. -/
def execute (prov : Nat → Nat → Except JsError Str) (texts : List Str)
    (useFallback : Bool) (maxRetries : Nat) : Except JsError MapSL :=
  if texts.isEmpty then .ok []
  else
    match processBatches prov useFallback maxRetries (chunkList 20 texts) 0 with
    | .error e => .error e
    | .ok results => .ok (mergeMaps results)

/-- A provider outcome on which `translateBatch` necessarily fails: a
rejected call, or a reply with null/empty content. -/
def respFails (r : Except JsError Str) : Bool :=
  match r with
  | .error _ => true
  | .ok c => decide (c = [])

end OpenAITranslatorService

namespace KvCacheService

/-- A well-formed cache record.  The ISO-8601 `createdAt`/`lastUsedAt`
strings are represented by the epoch-millisecond instants they denote. -/
structure CacheEntry where
  translatedText : Str
  lastUsedAt : Int
  createdAt : Int
deriving DecidableEq, Repr

/-- What `kv.get(key, { type: 'json' })` can produce for the service:
a thrown parse error, a missing key, a JSON value that fails the
`isCacheEntry` shape guard, or a well-formed entry. -/
inductive KvGetOutcome where
  | parseError
  | missing
  | malformed
  | found (e : CacheEntry)
deriving DecidableEq, Repr

/-- Model of `CacheGetResult` from `kv-cache.ts`. -/
structure CacheGetResult where
  translatedText : Str
  hit : Bool
deriving DecidableEq, Repr

/-- Service configuration (TTL and refresh interval, both in seconds). -/
structure KvConfig where
  ttlSeconds : Nat
  lastUsedAtUpdateIntervalSeconds : Nat
deriving DecidableEq, Repr

/-- Defaults: TTL 30 days, lastUsedAt update interval 1 day. -/
def defaultKvConfig : KvConfig := ⟨30 * 24 * 60 * 60, 24 * 60 * 60⟩

/-- A `kv.put(key, JSON.stringify(entry), { expirationTtl })` call. -/
structure PutCall where
  key : Str
  entry : CacheEntry
  expirationTtl : Nat
deriving DecidableEq, Repr

/-- Model of `KvCacheService.execute` (the TTL variant): read the key; on any error,
miss, or malformed payload return null; on a well-formed entry return a hit
and, when at least the refresh interval has elapsed since `lastUsedAt`,
issue a fire-and-forget rewrite with `lastUsedAt = now` and the full TTL.
The issued (not awaited) writes are returned alongside the result.
`(now - lastUsedAt) / 1000` is computed exactly, in ℚ. -/
def execute (st : Str → KvGetOutcome) (nowMs : Int) (cfg : KvConfig) (key : Str) :
    Option CacheGetResult × List PutCall :=
  match st key with
  | .parseError => (none, [])
  | .missing => (none, [])
  | .malformed => (none, [])
  | .found e =>
    let secondsSinceLastUpdate : ℚ := ((nowMs : ℚ) - (e.lastUsedAt : ℚ)) / 1000
    let puts :=
      if (cfg.lastUsedAtUpdateIntervalSeconds : ℚ) ≤ secondsSinceLastUpdate then
        [⟨key, { e with lastUsedAt := nowMs }, cfg.ttlSeconds⟩]
      else []
    (some ⟨e.translatedText, true⟩, puts)

/-- One step of the djb2-like hash: `(((hash << 5) + hash) ^ code) >>> 0`,
on 32-bit values. -/
def hashStep (h code : Nat) : Nat := (((h * 32 + h) % 4294967296) ^^^ code) % 4294967296

/-- Model of `hashText`: djb2-like fold over UTF-16 code units, seed 5381. -/
def hashText (s : Str) : Nat := (strUtf16Units s).foldl hashStep 5381

/-- Model of `generateKey`: `targetLang + ':' + hash.toString(16)`. -/
def generateKey (text lang : Str) : Str := lang ++ ':' :: natToHex (hashText text)

/-- Model of `KvCacheService.set`: a fresh entry with `createdAt = lastUsedAt = now`
and the configured TTL. -/
def set (nowMs : Int) (cfg : KvConfig) (key translatedText : Str) : PutCall :=
  ⟨key, ⟨translatedText, nowMs, nowMs⟩, cfg.ttlSeconds⟩

end KvCacheService

namespace JsTextExtractorService

/-- Match the body of a quoted literal starting just after an opening quote
`q`: the regex `(?:[^q\\]|\\.)*q` — a backslash pair (whose second character
may not be a line terminator, since `.` excludes them), or any single
character other than `q` and backslash, until the closing quote.  Returns
the body (quotes excluded) and the remainder after the closing quote. -/
def takeQuoted (q : Char) : Str → Option (Str × Str)
  | [] => none
  | c :: rest =>
    if c = q then some ([], rest)
    else if c = '\\' then
      match rest with
      | [] => none
      | d :: rest2 =>
        if d = '\n' ∨ d = '\r' ∨ d = Char.ofNat 0x2028 ∨ d = Char.ofNat 0x2029 then none
        else (takeQuoted q rest2).map (fun pr => (c :: d :: pr.1, pr.2))
    else (takeQuoted q rest).map (fun pr => (c :: pr.1, pr.2))

/-- Model of `jsCode.match(/q(?:[^q\\]|\\.)*q/g)` driven like the regex engine: try a
match at each position, continue after a successful match, advance one
character on failure.  `fuel` bounds the scan by the input length (each step
consumes at least one character, so `fuel = length` is always enough). -/
def scanQuotedGo (q : Char) : Nat → Str → List Str
  | 0, _ => []
  | _ + 1, [] => []
  | fuel + 1, c :: rest =>
    if c = q then
      match takeQuoted q rest with
      | some (content, r) => content :: scanQuotedGo q fuel r
      | none => scanQuotedGo q fuel rest
    else scanQuotedGo q fuel rest

/-- All quoted-literal bodies for quote character `q`, left to right. -/
def scanQuoted (q : Char) (s : Str) : List Str := scanQuotedGo q s.length s

/-- Model of `[0-9a-fA-F]`. -/
def isHexDigitCh (c : Char) : Bool :=
  ('0' ≤ c && c ≤ '9') || ('a' ≤ c && c ≤ 'f') || ('A' ≤ c && c ≤ 'F')

/-- Value of a hex digit. -/
def hexVal (c : Char) : Nat :=
  if c.toNat ≤ 57 then c.toNat - 48 else if c.toNat ≤ 70 then c.toNat - 55 else c.toNat - 87

/-- Model of `unescapeUnicode`, fuelled: replace each `\uXXXX` (exactly four hex
digits) by `String.fromCharCode(0xXXXX)`; anything else is copied (on a
failed match the engine advances one character).  Each step consumes at
least one character, so `fuel = length` always suffices. -/
def unescapeGo : Nat → Str → Str
  | 0, s => s
  | _ + 1, [] => []
  | fuel + 1, c :: rest =>
    if c = '\\' then
      match rest with
      | 'u' :: h1 :: h2 :: h3 :: h4 :: rest2 =>
        if isHexDigitCh h1 && isHexDigitCh h2 && isHexDigitCh h3 && isHexDigitCh h4 then
          Char.ofNat (hexVal h1 * 4096 + hexVal h2 * 256 + hexVal h3 * 16 + hexVal h4)
            :: unescapeGo fuel rest2
        else c :: unescapeGo fuel rest
      | _ => c :: unescapeGo fuel rest
    else c :: unescapeGo fuel rest

/-- Model of `unescapeUnicode` from `js-text-extractor.ts`. -/
def unescapeUnicode (s : Str) : Str := unescapeGo s.length s

/-- Model of `extractStringLiterals`: double-quoted matches first, then single-quoted
matches, each unescaped and kept when nonblank after trimming. -/
def extractStringLiterals (jsCode : Str) : List Str :=
  ((scanQuoted '"' jsCode).map unescapeUnicode).filter (fun s => decide (jsTrim s ≠ []))
    ++ ((scanQuoted '\'' jsCode).map unescapeUnicode).filter (fun s => decide (jsTrim s ≠ []))

/-- Model of `JsTextExtractorService.execute`: literals filtered to those containing
Japanese characters, deduplicated keeping first occurrences. -/
def execute (jsCode : Str) : List Str :=
  dedupFirst ((extractStringLiterals jsCode).filter containsJapanese)

end JsTextExtractorService

namespace JsTextReplacerService

/-- Model of `toUnicodeEscape`: non-ASCII characters become `\uXXXX` of their first
UTF-16 code unit (`charCodeAt(0)`), ASCII characters are copied. -/
def toUnicodeEscape : Str → Str
  | [] => []
  | c :: rest =>
    (if 127 < jsCharCodeAt0 c then '\\' :: 'u' :: hex4 (jsCharCodeAt0 c) else [c])
      ++ toUnicodeEscape rest

/-- Model of `escapeForJsString`: backslash, both quote characters, newline, carriage
return and tab are backslash-escaped; any other non-ASCII character becomes
`\uXXXX` of its first UTF-16 code unit; the rest is copied. -/
def escapeForJsString : Str → Str
  | [] => []
  | c :: rest =>
    (if c = '\\' then ['\\', '\\']
     else if c = '"' then ['\\', '"']
     else if c = '\'' then ['\\', '\'']
     else if c = '\n' then ['\\', 'n']
     else if c = '\r' then ['\\', 'r']
     else if c = '\t' then ['\\', 't']
     else if 127 < jsCharCodeAt0 c then '\\' :: 'u' :: hex4 (jsCharCodeAt0 c)
     else [c])
      ++ escapeForJsString rest

/-- Model of `replaceAllOccurrences`: replace the Unicode-escaped form of the
original, then its direct UTF-8 form, both by the safely escaped
translation (`split(x).join(y)` replacements). -/
def replaceAllOccurrences (code original translated : Str) : Str :=
  let escapedOriginal := toUnicodeEscape original
  let safeTranslated := escapeForJsString translated
  jsSplitJoin (jsSplitJoin code escapedOriginal safeTranslated) original safeTranslated

/-- The `[...translations.entries()].sort((a, b) => b[0].length - a[0].length)`
step: a stable sort by descending original length (JS `Array.sort` is
stable). -/
def sortEntries (translations : MapSL) : MapSL :=
  translations.mergeSort (fun a b => decide (b.1.length ≤ a.1.length))

/-- Model of `JsTextReplacerService.execute`: fold the sorted entries over the code. -/
def execute (jsCode : Str) (translations : MapSL) : Str :=
  (sortEntries translations).foldl (fun acc p => replaceAllOccurrences acc p.1 p.2) jsCode

/-- The escape mapping as the specification words it, per character:
backslash, both quote characters, newline, carriage return and tab are
escaped; any remaining non-ASCII character is re-encoded as a numeric
Unicode escape; other characters stand for themselves.  (Stated for
comparison with the implementation's `escapeForJsString`.) -/
def specCharEscape (c : Char) : Str :=
  if c = '\\' then ['\\', '\\']
  else if c = '"' then ['\\', '"']
  else if c = '\'' then ['\\', '\'']
  else if c = '\n' then ['\\', 'n']
  else if c = '\r' then ['\\', 'r']
  else if c = '\t' then ['\\', 't']
  else if 127 < c.toNat then '\\' :: 'u' :: hex4 c.toNat
  else [c]

/-- The specification's escape mapping extended to strings. -/
def specEscapeForJsString (s : Str) : Str := s.flatMap specCharEscape

end JsTextReplacerService

/-- A parsed JSON value (`JSON.parse` output), objects in key insertion
order (the order `Object.keys` iterates). -/
inductive Json where
  | str (s : Str)
  | num (q : ℚ)
  | boolean (b : Bool)
  | null
  | arr (items : List Json)
  | obj (fields : List (Str × Json))

/-- A hast property value as far as the services inspect one: a string, or
anything else (`typeof v === 'string'` fails). -/
inductive PropVal where
  | str (s : Str)
  | other
deriving DecidableEq, Repr

/-- A hast node: text, element (with properties and children), or any other
node kind (comments, doctypes), which both `visit(_, 'text')` and
`visit(_, 'element')` skip. -/
inductive HNode where
  | text (value : Str)
  | element (tagName : Str) (properties : List (Str × PropVal)) (children : List HNode)
  | comment (value : Str)

/-- A hast `Root`. -/
structure HRoot where
  children : List HNode

/-- Property access `element.properties[name]`. -/
def propLookup (props : List (Str × PropVal)) (name : Str) : Option PropVal :=
  match props.find? (fun p => decide (p.1 = name)) with
  | some p => some p.2
  | none => none

/-- Model of `EXCLUDE_TAGS` from `html-utils.ts`. -/
def EXCLUDE_TAGS : List Str := ["style".toList, "code".toList, "noscript".toList]

/-- Model of `TRANSLATABLE_ATTRIBUTES` from `html-utils.ts`. -/
def TRANSLATABLE_ATTRIBUTES : List Str :=
  ["alt".toList, "title".toList, "placeholder".toList, "ariaLabel".toList,
   "ariaDescription".toList, "content".toList]

/-- Model of `isHiddenInput` from `html-utils.ts`. -/
def isHiddenInput (tagName : Str) (props : List (Str × PropVal)) : Bool :=
  decide (tagName = "input".toList) &&
  decide (propLookup props ("type".toList) = some (.str ("hidden".toList)))

/-- Is this script element a JSON-LD or `__NEXT_DATA__` data island? -/
def isJsonLdOrNextData (tagName : Str) (props : List (Str × PropVal)) : Bool :=
  decide (tagName = "script".toList) &&
  (decide (propLookup props ("type".toList) = some (.str ("application/ld+json".toList))) ||
   decide (propLookup props ("id".toList) = some (.str ("__NEXT_DATA__".toList))))

namespace TextExtractorService

/-- Model of `shouldTranslateTextNode`: a root parent qualifies; a script parent does
not (JSON-LD is handled separately); excluded tags do not. -/
def shouldTranslateTextNode : Option Str → Bool
  | none => true
  | some tag =>
    if tag = "script".toList then false else !(decide (tag ∈ EXCLUDE_TAGS))

/-- The text-node candidate test applied during the text-node pass: trimmed
value nonempty and containing Japanese. -/
def textCandidate (v : Str) : List Str :=
  let trimmed := jsTrim v
  if trimmed ≠ [] ∧ containsJapanese trimmed then [trimmed] else []

mutual
/-- Candidate stream of the `extractTextNodes` visit, for one node, given
the enclosing parent's tag (none for the root). -/
def textCandidatesNode (parent : Option Str) : HNode → List Str
  | .text v => if shouldTranslateTextNode parent then textCandidate v else []
  | .element tag _ children => textCandidatesList (some tag) children
  | .comment _ => []

/-- Candidate stream of the `extractTextNodes` visit, over a child list. -/
def textCandidatesList (parent : Option Str) : List HNode → List Str
  | [] => []
  | n :: ns => textCandidatesNode parent n ++ textCandidatesList parent ns
end

/-- Model of `extractTextNodes`: the visit pushes a candidate unless already seen,
i.e. first-occurrence deduplication of the candidate stream. -/
def extractTextNodes (root : HRoot) : List Str :=
  dedupFirst (textCandidatesList none root.children)

mutual
/-- All text-node occurrences of a node, as (direct parent tag, raw value)
pairs, in visit order (for relating extraction to tree structure). -/
def textOccNode (parent : Option Str) : HNode → List (Option Str × Str)
  | .text v => [(parent, v)]
  | .element tag _ children => textOccList (some tag) children
  | .comment _ => []

/-- All text-node occurrences below a child list. -/
def textOccList (parent : Option Str) : List HNode → List (Option Str × Str)
  | [] => []
  | n :: ns => textOccNode parent n ++ textOccList parent ns
end

/-- All text-node occurrences of a document. -/
def textOccurrences (root : HRoot) : List (Option Str × Str) :=
  textOccList none root.children

mutual
/-- Candidate stream of the `extractAttributes` visit, for one node:
translatable attributes of non-excluded elements, plus the value attribute
of hidden inputs; children are visited regardless. -/
def attrCandidatesNode : HNode → List Str
  | .text _ => []
  | .comment _ => []
  | .element tag props children =>
    (if decide (tag ∈ EXCLUDE_TAGS) then []
     else
       (TRANSLATABLE_ATTRIBUTES.flatMap (fun a =>
         match propLookup props a with
         | some (.str v) => textCandidate v
         | _ => [])) ++
       (if isHiddenInput tag props then
          match propLookup props ("value".toList) with
          | some (.str v) => textCandidate v
          | _ => []
        else []))
      ++ attrCandidatesList children

/-- Candidate stream of the `extractAttributes` visit over a child list. -/
def attrCandidatesList : List HNode → List Str
  | [] => []
  | n :: ns => attrCandidatesNode n ++ attrCandidatesList ns
end

mutual
/-- Model of `collectJapaneseStrings`: depth-first over a parsed JSON value, pushing
nonblank trimmed strings that contain Japanese. -/
def collectJapaneseStrings : Json → List Str
  | .str v => textCandidate v
  | .num _ => []
  | .boolean _ => []
  | .null => []
  | .arr items => collectJapaneseList items
  | .obj fields => collectJapaneseFields fields

/-- Model of `collectJapaneseStrings` over an array's items. -/
def collectJapaneseList : List Json → List Str
  | [] => []
  | x :: xs => collectJapaneseStrings x ++ collectJapaneseList xs

/-- Model of `collectJapaneseStrings` over an object's fields, in key order. -/
def collectJapaneseFields : List (Str × Json) → List Str
  | [] => []
  | f :: fs => collectJapaneseStrings f.2 ++ collectJapaneseFields fs
end

/-- The regex fallback scan `/"[^"]*JP[^"]*"/g` when JSON parsing fails:
at each quote, the candidate match is the span up to the next quote; it
matches when the span contains a Japanese character; on a match scanning
continues after the closing quote, on failure one character past the
opening quote (so that quote's closer can open the next attempt); with no
closing quote anywhere there is no further match. -/
def jsonLdRegexScanGo : Nat → Str → List Str
  | 0, _ => []
  | _ + 1, [] => []
  | fuel + 1, c :: rest =>
    if c = '"' then
      let span := rest.takeWhile (fun d => !(d == '"'))
      match rest.dropWhile (fun d => !(d == '"')) with
      | '"' :: rest2 =>
        if span.any isJapaneseChar then span :: jsonLdRegexScanGo fuel rest2
        else jsonLdRegexScanGo fuel rest
      | _ => []
    else jsonLdRegexScanGo fuel rest

/-- The regex fallback scan over a whole string (each step of the engine
consumes at least one character, so `fuel = length` always suffices). -/
def jsonLdRegexScan (s : Str) : List Str := jsonLdRegexScanGo s.length s

/-- Model of `extractJapaneseFromJson`: parse and walk; on a parse failure fall back
to the regex scan, keeping matched spans that contain Japanese (the
`JSON.parse` builtin itself is the external collaborator `jsonParse`). -/
def extractJapaneseFromJson (jsonParse : Str → Option Json) (jsonString : Str) : List Str :=
  match jsonParse jsonString with
  | some parsed => collectJapaneseStrings parsed
  | none => (jsonLdRegexScan jsonString).filter containsJapanese

mutual
/-- Candidate stream of the `extractJsonLd` visit, for one node: for a
JSON-LD / `__NEXT_DATA__` script whose first child is text, the strings
found in that text; children are visited regardless. -/
def jsonLdCandidatesNode (jsonParse : Str → Option Json) : HNode → List Str
  | .text _ => []
  | .comment _ => []
  | .element tag props children =>
    (if isJsonLdOrNextData tag props then
       match children with
       | .text jsonContent :: _ => extractJapaneseFromJson jsonParse jsonContent
       | _ => []
     else []) ++ jsonLdCandidatesList jsonParse children

/-- Candidate stream of the `extractJsonLd` visit over a child list. -/
def jsonLdCandidatesList (jsonParse : Str → Option Json) : List HNode → List Str
  | [] => []
  | n :: ns => jsonLdCandidatesNode jsonParse n ++ jsonLdCandidatesList jsonParse ns
end

/-- Model of `TextExtractorService.execute` (values only; the structural
back-references travel with the tree and are not needed by the claims):
the three passes share one `seenValues` set, i.e. the concatenated
candidate stream deduplicated by first occurrence. -/
def execute (jsonParse : Str → Option Json) (root : HRoot) : List Str :=
  dedupFirst (textCandidatesList none root.children
    ++ attrCandidatesList root.children
    ++ jsonLdCandidatesList jsonParse root.children)

/-- Model of `getUniqueTexts`: the values of `execute`, deduplicated — already
deduplicated, hence identical. -/
def getUniqueTexts (jsonParse : Str → Option Json) (root : HRoot) : List Str :=
  execute jsonParse root

end TextExtractorService

namespace TextReplacerService

/-- Model of `shouldReplace` from `text-replacer.ts` (same rule as the extractor's
`shouldTranslateTextNode`). -/
def shouldReplace : Option Str → Bool
  | none => true
  | some tag =>
    if tag = "script".toList then false else !(decide (tag ∈ EXCLUDE_TAGS))

/-- The shared per-string replacement: look up the trimmed value; on a
truthy translation replace its first occurrence inside the original
(preserving surrounding whitespace). -/
def replaceTextValue (translations : MapSL) (v : Str) : Str :=
  let trimmed := jsTrim v
  match mapLookup translations trimmed with
  | some t => if t ≠ [] then jsReplaceFirst v trimmed t else v
  | none => v

mutual
/-- The `replaceTextNodes` visit for one node. -/
def replaceTextNodesNode (translations : MapSL) (parent : Option Str) : HNode → HNode
  | .text v =>
    if shouldReplace parent then .text (replaceTextValue translations v) else .text v
  | .element tag props children =>
    .element tag props (replaceTextNodesList translations (some tag) children)
  | .comment v => .comment v

/-- The `replaceTextNodes` visit over a child list. -/
def replaceTextNodesList (translations : MapSL) (parent : Option Str) : List HNode → List HNode
  | [] => []
  | n :: ns =>
    replaceTextNodesNode translations parent n :: replaceTextNodesList translations parent ns
end

/-- The property rewrite of the `replaceAttributes` visit on one element's
property list: translatable attributes with string values are replaced, and
for hidden inputs the value attribute as well. -/
def replaceProps (translations : MapSL) (tag : Str) (props : List (Str × PropVal)) :
    List (Str × PropVal) :=
  if decide (tag ∈ EXCLUDE_TAGS) then props
  else
    let p1 := props.map (fun p =>
      if decide (p.1 ∈ TRANSLATABLE_ATTRIBUTES) then
        match p.2 with
        | .str v => (p.1, PropVal.str (replaceTextValue translations v))
        | o => (p.1, o)
      else p)
    if isHiddenInput tag props then
      p1.map (fun p =>
        if decide (p.1 = "value".toList) then
          match p.2 with
          | .str v => (p.1, PropVal.str (replaceTextValue translations v))
          | o => (p.1, o)
        else p)
    else p1

mutual
/-- The `replaceAttributes` visit for one node (children are visited even
under excluded elements). -/
def replaceAttrsNode (translations : MapSL) : HNode → HNode
  | .text v => .text v
  | .comment v => .comment v
  | .element tag props children =>
    .element tag (replaceProps translations tag props) (replaceAttrsList translations children)

/-- The `replaceAttributes` visit over a child list. -/
def replaceAttrsList (translations : MapSL) : List HNode → List HNode
  | [] => []
  | n :: ns => replaceAttrsNode translations n :: replaceAttrsList translations ns
end

mutual
/-- Model of `replaceInJsonValue`: strings whose trimmed value has a truthy
translation are replaced in place (first occurrence); arrays and objects
are rebuilt recursively. -/
def replaceInJsonValue (translations : MapSL) : Json → Json
  | .str v =>
    let trimmed := jsTrim v
    (match mapLookup translations trimmed with
     | some t => if t ≠ [] then .str (jsReplaceFirst v trimmed t) else .str v
     | none => .str v)
  | .num q => .num q
  | .boolean b => .boolean b
  | .null => .null
  | .arr items => .arr (replaceInJsonList translations items)
  | .obj fields => .obj (replaceInJsonFields translations fields)

/-- Model of `replaceInJsonValue` over an array's items. -/
def replaceInJsonList (translations : MapSL) : List Json → List Json
  | [] => []
  | x :: xs => replaceInJsonValue translations x :: replaceInJsonList translations xs

/-- Model of `replaceInJsonValue` over an object's fields. -/
def replaceInJsonFields (translations : MapSL) : List (Str × Json) → List (Str × Json)
  | [] => []
  | f :: fs => (f.1, replaceInJsonValue translations f.2) :: replaceInJsonFields translations fs
end

/-- The fallback loop of `replaceJsonLd` when `JSON.parse` fails: for each
entry, replace all occurrences of the regex-escaped original, globally. -/
def jsonLdRawFallback (translations : MapSL) (content : Str) : Str :=
  translations.foldl (fun acc p => jsRegexReplaceAll acc p.1 p.2) content

mutual
/-- The `replaceJsonLd` visit for one node: rewrite the text child of
JSON-LD / `__NEXT_DATA__` scripts (parse, replace, re-stringify; on parse
failure, raw global replacement); `jsonParse`/`jsonStringify` are the
external JSON collaborators. -/
def replaceJsonLdNode (jsonParse : Str → Option Json) (jsonStringify : Json → Str)
    (translations : MapSL) : HNode → HNode
  | .text v => .text v
  | .comment v => .comment v
  | .element tag props children =>
    -- The pass leaves text nodes unchanged, so rewriting the text child of a
    -- data island after recursing into the children equals the source's
    -- rewrite-then-continue visit order.
    let children1 := replaceJsonLdList jsonParse jsonStringify translations children
    let children2 :=
      if isJsonLdOrNextData tag props then
        match children1 with
        | .text jsonContent :: rest =>
          (match jsonParse jsonContent with
           | some parsed =>
             HNode.text (jsonStringify (replaceInJsonValue translations parsed)) :: rest
           | none => HNode.text (jsonLdRawFallback translations jsonContent) :: rest)
        | other => other
      else children1
    .element tag props children2

/-- The `replaceJsonLd` visit over a child list. -/
def replaceJsonLdList (jsonParse : Str → Option Json) (jsonStringify : Json → Str)
    (translations : MapSL) : List HNode → List HNode
  | [] => []
  | n :: ns =>
    replaceJsonLdNode jsonParse jsonStringify translations n
      :: replaceJsonLdList jsonParse jsonStringify translations ns
end

/-- Model of `TextReplacerService.execute`: the three passes in order over the same
tree. -/
def execute (jsonParse : Str → Option Json) (jsonStringify : Json → Str)
    (root : HRoot) (translations : MapSL) : HRoot :=
  ⟨replaceJsonLdList jsonParse jsonStringify translations
    (replaceAttrsList translations
      (replaceTextNodesList translations none root.children))⟩

end TextReplacerService

/-- An externally visible side effect of the cache-aside layer: a cache
read, an issued cache write, or an invocation of the translation client. -/
inductive Effect where
  | cacheGet (key : Str)
  | cachePut (key : Str)
  | clientCall (texts : List Str)
deriving DecidableEq, Repr

namespace CachedTranslatorService

/-- One cache probe of the read pass: the text, its key, the read result
and the writes the read itself issued (the refresh path). -/
structure ReadRec where
  text : Str
  key : Str
  res : Option KvCacheService.CacheGetResult
  puts : List KvCacheService.PutCall

/-- Model of `CachedTranslatorService.execute`, with its side effects made explicit.
An empty input short-circuits to an empty map.  Otherwise every text is
probed in the cache (when one is configured; concurrent independent reads
are modelled in input order), hits populate the result, misses go to the
translator (built with default options: fallback enabled, 3 retries), whose
results are merged and written back fire-and-forget.  A translator
rejection rejects the whole call. -/
def execute (hasCache : Bool) (st : Str → KvCacheService.KvGetOutcome) (nowMs : Int)
    (cfg : KvCacheService.KvConfig) (prov : Nat → Nat → Except OpenAITranslatorService.JsError Str)
    (texts : List Str) (lang : Str) :
    Except OpenAITranslatorService.JsError (MapSL × List Effect) :=
  if texts.isEmpty then .ok ([], [])
  else
    let reads : List ReadRec :=
      if hasCache then
        texts.map (fun t =>
          let key := KvCacheService.generateKey t lang
          let r := KvCacheService.execute st nowMs cfg key
          ⟨t, key, r.1, r.2⟩)
      else []
    let readEffects :=
      reads.flatMap (fun r => Effect.cacheGet r.key :: r.puts.map (fun pc => Effect.cachePut pc.key))
    let translations :=
      reads.foldl (fun acc r =>
        match r.res with
        | some cr => mapSet acc r.text cr.translatedText
        | none => acc) []
    let textsToTranslate :=
      if hasCache then (reads.filter (fun r => r.res.isNone)).map (fun r => r.text) else texts
    if textsToTranslate.isEmpty then .ok (translations, readEffects)
    else
      match OpenAITranslatorService.execute prov textsToTranslate true 3 with
      | .error e => .error e
      | .ok newTranslations =>
        let merged := OpenAITranslatorService.mergeInto translations newTranslations
        let putEffects :=
          if hasCache then
            newTranslations.map (fun p => Effect.cachePut (KvCacheService.generateKey p.1 lang))
          else []
        .ok (merged, readEffects ++ Effect.clientCall textsToTranslate :: putEffects)

end CachedTranslatorService

namespace TranslationOrchestratorService

/-- Model of `TranslationOrchestratorService.execute`: parse, extract unique
Japanese texts, and — when none are found — return the original markup with
no external effect; otherwise translate through the cache-aside layer,
substitute, and serialize.  `parse`/`serialize` (the document tree adapter)
and `jsonParse`/`jsonStringify` (the embedded-JSON adapter) are the
external collaborators. -/
def execute (parse : Str → HRoot) (serialize : HRoot → Str)
    (jsonParse : Str → Option Json) (jsonStringify : Json → Str)
    (hasCache : Bool) (st : Str → KvCacheService.KvGetOutcome) (nowMs : Int)
    (cfg : KvCacheService.KvConfig)
    (prov : Nat → Nat → Except OpenAITranslatorService.JsError Str)
    (html : Str) (lang : Str) :
    Except OpenAITranslatorService.JsError (Str × List Effect) :=
  let hast := parse html
  let texts := TextExtractorService.getUniqueTexts jsonParse hast
  if texts.isEmpty then .ok (html, [])
  else
    match CachedTranslatorService.execute hasCache st nowMs cfg prov texts lang with
    | .error e => .error e
    | .ok (translations, effects) =>
      .ok (serialize (TextReplacerService.execute jsonParse jsonStringify hast translations),
           effects)

end TranslationOrchestratorService

/-- Concrete script payload for exercising the literal extractor: a literal
containing braces (and Japanese characters). -/
def witJsCode : Str :=
  ['v', 'a', 'r', ' ', 'a', ' ', '=', ' ', '"', 'あ', '{', 'い', '}', '"', ';']

/-- The decoded literal the extractor finds in `witJsCode`. -/
def witBraceLiteral : Str := ['あ', '{', 'い', '}']

/-- A 210-character decoded literal that violates every condition of the
claimed filter at once: it is at least 200 characters long, contains braces,
and has more than 10 non-whitespace characters of which fewer than 20% are
Japanese (exactly one is). -/
def witLongLiteral : Str := 'あ' :: '{' :: '}' :: List.replicate 207 'a'

/-- Script payload whose only quoted literal is `witLongLiteral`. -/
def witLongCode : Str :=
  ['v', 'a', 'r', ' ', 'a', '=', '"'] ++ witLongLiteral ++ ['"', ';']

/-- Concrete document: a text node with Japanese content whose direct parent
is a `div` and whose grandparent is a `noscript` element. -/
def witNoscriptRoot : HRoot :=
  ⟨[.element ("noscript".toList) []
      [.element ("div".toList) [] [.text ("日本".toList)]]]⟩

/-- Twenty-one pairwise distinct one-character texts (two batches of the
translator: one of twenty, one of one). -/
def witTexts : List Str :=
  [['あ'], ['い'], ['う'], ['え'], ['お'], ['か'], ['き'], ['く'], ['け'], ['こ'],
   ['さ'], ['し'], ['す'], ['せ'], ['そ'], ['た'], ['ち'], ['つ'], ['て'], ['と'],
   ['な']]

/-- A provider oracle that fails batch 1 with a retryable timeout on every
attempt and answers every other batch with twenty lines. -/
def witProvC6 : Nat → Nat → Except OpenAITranslatorService.JsError Str :=
  fun b _ =>
    if b = 1 then .error ⟨"Error".toList, "timeout".toList, none⟩
    else .ok (("a\nb\nc\nd\ne\nf\ng\nh\ni\nj\nk\nl\nm\nn\no\np\nq\nr\ns\nt").toList)

/-! ### Lemmas: deduplication and association maps -/

theorem mem_dedupFirstAux {α : Type} [DecidableEq α] (l : List α) :
    ∀ (seen : List α) (x : α), x ∈ dedupFirstAux seen l ↔ x ∈ l ∧ x ∉ seen := by
  induction l with
  | nil => intro seen x; simp [dedupFirstAux]
  | cons y ys ih =>
    intro seen x
    by_cases hy : y ∈ seen
    · rw [dedupFirstAux, if_pos hy, ih]
      simp only [List.mem_cons]
      constructor
      · rintro ⟨h1, h2⟩; exact ⟨Or.inr h1, h2⟩
      · rintro ⟨h1 | h1, h2⟩
        · exact absurd (h1 ▸ hy) h2
        · exact ⟨h1, h2⟩
    · rw [dedupFirstAux, if_neg hy]
      simp only [List.mem_cons, ih]
      constructor
      · rintro (rfl | ⟨h1, h2⟩)
        · exact ⟨Or.inl rfl, hy⟩
        · exact ⟨Or.inr h1, fun hx => h2 (Or.inr hx)⟩
      · rintro ⟨rfl | h1, h2⟩
        · exact Or.inl rfl
        · by_cases hxy : x = y
          · exact Or.inl hxy
          · exact Or.inr ⟨h1, by simp [hxy, h2]⟩

theorem mem_dedupFirst {α : Type} [DecidableEq α] (l : List α) (x : α) :
    x ∈ dedupFirst l ↔ x ∈ l := by
  simp [dedupFirst, mem_dedupFirstAux]

theorem mapLookup_mapSet_self (m : MapSL) (k v : Str) :
    mapLookup (mapSet m k v) k = some v := by
  induction m with
  | nil => simp [mapSet, mapLookup]
  | cons p rest ih =>
    by_cases h : p.1 = k
    · simp [mapSet, h, mapLookup]
    · simp [mapSet, h, mapLookup, ih]

theorem mapLookup_mapSet_ne (m : MapSL) (k v t : Str) (h : t ≠ k) :
    mapLookup (mapSet m k v) t = mapLookup m t := by
  have hkt : ¬(k = t) := fun he => h he.symm
  induction m with
  | nil => simp [mapSet, mapLookup, hkt]
  | cons p rest ih =>
    by_cases hp : p.1 = k
    · have hpt : ¬(p.1 = t) := by rw [hp]; exact hkt
      simp [mapSet, hp, mapLookup, hkt, hpt]
    · by_cases hpt : p.1 = t
      · simp [mapSet, hp, mapLookup, hpt, h, hkt]
      · simp [mapSet, hp, mapLookup, hpt, ih]

theorem mapKeys_mapSet (m : MapSL) (k v : Str) :
    mapKeys (mapSet m k v) = if k ∈ mapKeys m then mapKeys m else mapKeys m ++ [k] := by
  induction m with
  | nil => simp [mapSet, mapKeys]
  | cons p rest ih =>
    by_cases h : p.1 = k
    · rw [mapSet, if_pos h]
      simp [mapKeys, h]
    · rw [mapSet, if_neg h]
      have hne : ¬(k = p.1) := fun he => h he.symm
      simp only [mapKeys, List.map_cons] at ih ⊢
      rw [ih]
      by_cases hk : k ∈ List.map Prod.fst rest
      · simp [hk, hne]
      · simp [hk, hne]

theorem mem_mapKeys_mapSet (m : MapSL) (k v t : Str) :
    t ∈ mapKeys (mapSet m k v) ↔ t = k ∨ t ∈ mapKeys m := by
  rw [mapKeys_mapSet]
  by_cases h : k ∈ mapKeys m
  · simp only [if_pos h]
    constructor
    · exact Or.inr
    · rintro (rfl | h2)
      · exact h
      · exact h2
  · simp [if_neg h, List.mem_append]
    tauto

theorem nodup_mapKeys_mapSet (m : MapSL) (k v : Str) (h : (mapKeys m).Nodup) :
    (mapKeys (mapSet m k v)).Nodup := by
  rw [mapKeys_mapSet]
  by_cases hk : k ∈ mapKeys m
  · simpa [hk] using h
  · simp [hk, List.nodup_append, h]

theorem mapLookup_isSome_iff (m : MapSL) (t : Str) :
    (mapLookup m t).isSome ↔ t ∈ mapKeys m := by
  induction m with
  | nil => simp [mapLookup, mapKeys]
  | cons p rest ih =>
    by_cases h : p.1 = t
    · simp only [mapLookup, if_pos h, mapKeys, List.map_cons, Option.isSome_some, true_iff]
      exact List.mem_cons.mpr (Or.inl h.symm)
    · simp only [mapLookup, if_neg h, mapKeys, List.map_cons]
      simp only [mapKeys] at ih
      rw [ih, List.mem_cons]
      constructor
      · exact Or.inr
      · rintro (he | hm)
        · exact absurd he.symm h
        · exact hm

theorem mapLookup_eq_none_iff (m : MapSL) (t : Str) :
    mapLookup m t = none ↔ t ∉ mapKeys m := by
  rw [← mapLookup_isSome_iff]
  cases mapLookup m t <;> simp

/-! ### Lemmas: merging batch maps -/

theorem mergeInto_nil (acc : MapSL) : OpenAITranslatorService.mergeInto acc [] = acc := rfl

theorem mergeInto_cons (acc : MapSL) (p : Str × Str) (rest : MapSL) :
    OpenAITranslatorService.mergeInto acc (p :: rest) =
      OpenAITranslatorService.mergeInto (mapSet acc p.1 p.2) rest := rfl

theorem mapLookup_mergeInto_of_nodup (m : MapSL) (t : Str) :
    ∀ (acc : MapSL), (mapKeys m).Nodup →
      mapLookup (OpenAITranslatorService.mergeInto acc m) t =
        match mapLookup m t with
        | some v => some v
        | none => mapLookup acc t := by
  induction m with
  | nil => intro acc _; simp [mergeInto_nil, mapLookup]
  | cons p rest ih =>
    intro acc hnd
    have hnd12 : p.1 ∉ mapKeys rest ∧ (mapKeys rest).Nodup := by
      simpa [mapKeys, List.nodup_cons] using hnd
    have hnd2 := hnd12.2
    have hp1 := hnd12.1
    rw [mergeInto_cons, ih _ hnd2]
    by_cases ht : p.1 = t
    · subst ht
      have hnone : mapLookup rest p.1 = none := (mapLookup_eq_none_iff _ _).mpr hp1
      simp [hnone, mapLookup, mapLookup_mapSet_self]
    · have htp : t ≠ p.1 := fun he => ht he.symm
      cases hmr : mapLookup rest t <;>
        simp [hmr, mapLookup, ht, mapLookup_mapSet_ne _ _ _ _ htp]

theorem mapLookup_mergeInto_not_key (m : MapSL) (t : Str) :
    ∀ (acc : MapSL), t ∉ mapKeys m →
      mapLookup (OpenAITranslatorService.mergeInto acc m) t = mapLookup acc t := by
  induction m with
  | nil => intro acc _; rfl
  | cons p rest ih =>
    intro acc h
    simp only [mapKeys, List.map_cons, List.mem_cons] at h
    push_neg at h
    rw [mergeInto_cons, ih _ (by simpa [mapKeys] using h.2), mapLookup_mapSet_ne _ _ _ _ h.1]

theorem mapLookup_mergeInto_isSome (m : MapSL) (t : Str) :
    ∀ (acc : MapSL), (mapLookup acc t).isSome ∨ t ∈ mapKeys m →
      (mapLookup (OpenAITranslatorService.mergeInto acc m) t).isSome := by
  induction m with
  | nil =>
    intro acc h
    rcases h with h | h
    · exact h
    · simp [mapKeys] at h
  | cons p rest ih =>
    intro acc h
    rw [mergeInto_cons]
    apply ih
    rcases h with h | h
    · left
      by_cases hpt : t = p.1
      · subst hpt; simp [mapLookup_mapSet_self]
      · rwa [mapLookup_mapSet_ne _ _ _ _ hpt]
    · simp only [mapKeys, List.map_cons, List.mem_cons] at h
      rcases h with h | h
      · left; subst h; simp [mapLookup_mapSet_self]
      · right; exact h

theorem foldl_mergeInto_not_key (ms : List MapSL) (t : Str) :
    ∀ (acc : MapSL), (∀ m ∈ ms, t ∉ mapKeys m) →
      mapLookup (ms.foldl OpenAITranslatorService.mergeInto acc) t = mapLookup acc t := by
  induction ms with
  | nil => intro acc _; rfl
  | cons m0 ms ih =>
    intro acc h
    rw [List.foldl_cons, ih _ (fun m hm => h m (List.mem_cons_of_mem _ hm)),
      mapLookup_mergeInto_not_key _ _ _ (h m0 (List.mem_cons_self _ _))]

theorem foldl_mergeInto_isSome (ms : List MapSL) (t : Str) :
    ∀ (acc : MapSL), (mapLookup acc t).isSome ∨ (∃ m ∈ ms, t ∈ mapKeys m) →
      (mapLookup (ms.foldl OpenAITranslatorService.mergeInto acc) t).isSome := by
  induction ms with
  | nil =>
    intro acc h
    rcases h with h | ⟨m, hm, _⟩
    · exact h
    · simp at hm
  | cons m0 ms ih =>
    intro acc h
    rw [List.foldl_cons]
    apply ih
    rcases h with h | ⟨m, hm, hk⟩
    · left; exact mapLookup_mergeInto_isSome _ _ _ (Or.inl h)
    · rcases List.mem_cons.mp hm with rfl | hm2
      · left; exact mapLookup_mergeInto_isSome _ _ _ (Or.inr hk)
      · right; exact ⟨m, hm2, hk⟩

theorem foldl_mergeInto_get (ms : List MapSL) (t : Str) :
    ∀ (i : Nat) (hi : i < ms.length) (acc : MapSL),
      mapLookup acc t = none →
      (mapKeys (ms.get ⟨i, hi⟩)).Nodup →
      (∀ (j : Nat) (hj : j < ms.length), j ≠ i → t ∉ mapKeys (ms.get ⟨j, hj⟩)) →
      mapLookup (ms.foldl OpenAITranslatorService.mergeInto acc) t = mapLookup (ms.get ⟨i, hi⟩) t := by
  induction ms with
  | nil =>
    intro i hi
    exact absurd hi (by simp)
  | cons m0 ms ih =>
    intro i hi acc hacc hnd hothers
    cases i with
    | zero =>
      have hrest : ∀ m ∈ ms, t ∉ mapKeys m := by
        intro m hm
        obtain ⟨⟨j, hj⟩, hget⟩ := List.mem_iff_get.mp hm
        have hg2 : ms[j] = m := by simpa using hget
        have := hothers (j + 1) (by simpa using Nat.succ_lt_succ hj) (by omega)
        simpa [hg2] using this
      rw [List.foldl_cons, foldl_mergeInto_not_key ms t _ hrest,
        mapLookup_mergeInto_of_nodup m0 t acc (by simpa using hnd)]
      simp only [List.get]
      cases hm0 : mapLookup m0 t <;> simp [hm0, hacc]
    | succ i2 =>
      have h0 : t ∉ mapKeys m0 := by
        have := hothers 0 (by omega) (by omega)
        simpa using this
      rw [List.foldl_cons]
      have := ih i2 (by simpa using Nat.lt_of_succ_lt_succ hi)
        (OpenAITranslatorService.mergeInto acc m0)
        (by rw [mapLookup_mergeInto_not_key _ _ _ h0]; exact hacc)
        (by simpa using hnd)
        (by intro j hj hji
            have := hothers (j + 1) (by simpa using Nat.succ_lt_succ hj) (by omega)
            simpa using this)
      simpa using this

/-! ### Lemmas: the fallback map and the batch response map -/

theorem lookup_foldl_mapSet_id (l : List Str) (t : Str) :
    ∀ (acc : MapSL),
      mapLookup (l.foldl (fun a x => mapSet a x x) acc) t =
        if t ∈ l then some t else mapLookup acc t := by
  induction l with
  | nil => intro acc; simp
  | cons x xs ih =>
    intro acc
    rw [List.foldl_cons, ih]
    by_cases hx : t = x
    · subst hx
      by_cases hmem : t ∈ xs
      · simp [hmem]
      · simp [hmem, mapLookup_mapSet_self]
    · by_cases hmem : t ∈ xs
      · simp [hmem, hx]
      · simp [hmem, hx, mapLookup_mapSet_ne _ _ _ _ hx]

theorem fallbackMap_lookup (l : List Str) (t : Str) :
    mapLookup (OpenAITranslatorService.fallbackMap l) t = if t ∈ l then some t else none := by
  rw [OpenAITranslatorService.fallbackMap, lookup_foldl_mapSet_id]
  rfl

theorem mem_mapKeys_fallbackMap (l : List Str) (t : Str) :
    t ∈ mapKeys (OpenAITranslatorService.fallbackMap l) ↔ t ∈ l := by
  rw [← mapLookup_isSome_iff, fallbackMap_lookup]
  by_cases h : t ∈ l <;> simp [h]

theorem nodup_keys_foldl_mapSet_id (l : List Str) :
    ∀ (acc : MapSL), (mapKeys acc).Nodup →
      (mapKeys (l.foldl (fun a x => mapSet a x x) acc)).Nodup := by
  induction l with
  | nil => intro acc h; exact h
  | cons x xs ih =>
    intro acc h
    rw [List.foldl_cons]
    exact ih _ (nodup_mapKeys_mapSet _ _ _ h)

theorem fallbackMap_keys_nodup (l : List Str) :
    (mapKeys (OpenAITranslatorService.fallbackMap l)).Nodup := by
  rw [OpenAITranslatorService.fallbackMap]
  exact nodup_keys_foldl_mapSet_id l [] (by simp [mapKeys])

theorem buildBatchMap_keys_mono (uf : Bool) (lines : List Str) (texts : List Str) (t : Str) :
    ∀ (i : Nat) (acc : MapSL), t ∈ mapKeys acc →
      t ∈ mapKeys (OpenAITranslatorService.buildBatchMap uf lines texts i acc) := by
  induction texts with
  | nil => intro i acc h; exact h
  | cons t0 ts ih =>
    intro i acc h
    cases hL : lines.get? i <;>
      simp only [OpenAITranslatorService.buildBatchMap, hL] <;>
      split_ifs <;>
      apply ih <;>
      simp [mem_mapKeys_mapSet, h]

theorem buildBatchMap_keys_complete (lines : List Str) (texts : List Str) (t : Str) :
    ∀ (i : Nat) (acc : MapSL), t ∈ texts →
      t ∈ mapKeys (OpenAITranslatorService.buildBatchMap true lines texts i acc) := by
  induction texts with
  | nil => intro i acc h; simp at h
  | cons t0 ts ih =>
    intro i acc h
    rcases List.mem_cons.mp h with rfl | hts
    · cases hL : lines.get? i <;>
        simp only [OpenAITranslatorService.buildBatchMap, hL] <;>
        split_ifs <;>
        exact buildBatchMap_keys_mono _ _ _ _ _ _ (by simp [mem_mapKeys_mapSet])
    · cases hL : lines.get? i <;>
        simp only [OpenAITranslatorService.buildBatchMap, hL] <;>
        split_ifs <;>
        exact ih _ _ hts

theorem buildBatchMap_keys_sub (uf : Bool) (lines : List Str) (texts : List Str) (t : Str) :
    ∀ (i : Nat) (acc : MapSL),
      t ∈ mapKeys (OpenAITranslatorService.buildBatchMap uf lines texts i acc) →
      t ∈ texts ∨ t ∈ mapKeys acc := by
  induction texts with
  | nil => intro i acc h; exact Or.inr h
  | cons t0 ts ih =>
    intro i acc h
    have main : ∀ v : Str,
        t ∈ mapKeys (OpenAITranslatorService.buildBatchMap uf lines ts (i + 1) (mapSet acc t0 v)) →
        t ∈ (t0 :: ts : List Str) ∨ t ∈ mapKeys acc := by
      intro v hv
      rcases ih _ _ hv with hts | hacc2
      · exact Or.inl (List.mem_cons_of_mem _ hts)
      · rcases (mem_mapKeys_mapSet _ _ _ _).mp hacc2 with rfl | h2
        · exact Or.inl (List.mem_cons_self _ _)
        · exact Or.inr h2
    have main2 :
        t ∈ mapKeys (OpenAITranslatorService.buildBatchMap uf lines ts (i + 1) acc) →
        t ∈ (t0 :: ts : List Str) ∨ t ∈ mapKeys acc := by
      intro hv
      rcases ih _ _ hv with hts | hacc2
      · exact Or.inl (List.mem_cons_of_mem _ hts)
      · exact Or.inr hacc2
    cases hL : lines.get? i <;>
      simp only [OpenAITranslatorService.buildBatchMap, hL] at h <;>
      split_ifs at h <;>
      first
      | exact main _ h
      | exact main2 h

theorem buildBatchMap_keys_nodup (uf : Bool) (lines : List Str) (texts : List Str) :
    ∀ (i : Nat) (acc : MapSL), (mapKeys acc).Nodup →
      (mapKeys (OpenAITranslatorService.buildBatchMap uf lines texts i acc)).Nodup := by
  induction texts with
  | nil => intro i acc h; exact h
  | cons t0 ts ih =>
    intro i acc h
    cases hL : lines.get? i <;>
      simp only [OpenAITranslatorService.buildBatchMap, hL] <;>
      split_ifs <;>
      apply ih <;>
      first
      | exact nodup_mapKeys_mapSet _ _ _ h
      | exact h

/-! ### Lemmas: batch calls, retries, and the worker pool -/

theorem translateBatch_ok_shape (resp : Except OpenAITranslatorService.JsError Str)
    (texts : List Str) (uf : Bool) (m : MapSL)
    (h : OpenAITranslatorService.translateBatch resp texts uf = .ok m) :
    ∃ lines, m = OpenAITranslatorService.buildBatchMap uf lines texts 0 [] := by
  cases resp with
  | error e => simp [OpenAITranslatorService.translateBatch] at h
  | ok content =>
    by_cases hc : content = []
    · simp [OpenAITranslatorService.translateBatch, hc] at h
    · refine ⟨(content.splitOn '\n').filter (fun l => decide (jsTrim l ≠ [])), ?_⟩
      simp only [OpenAITranslatorService.translateBatch, if_neg hc, Except.ok.injEq] at h
      exact h.symm

theorem translateBatch_fails (r : Except OpenAITranslatorService.JsError Str)
    (texts : List Str) (uf : Bool) (h : OpenAITranslatorService.respFails r = true) :
    ∃ e, OpenAITranslatorService.translateBatch r texts uf = .error e := by
  cases r with
  | error e => exact ⟨e, rfl⟩
  | ok c =>
    have hc : c = [] := by simpa [OpenAITranslatorService.respFails] using h
    exact ⟨OpenAITranslatorService.emptyResponseError,
      by simp [OpenAITranslatorService.translateBatch, hc]⟩

theorem retryGo_ok_shape (prov : Nat → Except OpenAITranslatorService.JsError Str)
    (texts : List Str) (uf : Bool) :
    ∀ (f a : Nat) (m : MapSL), OpenAITranslatorService.retryGo prov texts uf a f = .ok m →
      ∃ lines, m = OpenAITranslatorService.buildBatchMap uf lines texts 0 [] := by
  intro f
  induction f with
  | zero =>
    intro a m h
    rw [OpenAITranslatorService.retryGo] at h
    cases hTB : OpenAITranslatorService.translateBatch (prov a) texts uf with
    | ok m2 =>
      simp only [hTB, Except.ok.injEq] at h
      exact h ▸ translateBatch_ok_shape _ _ _ _ hTB
    | error e =>
      simp only [hTB] at h
      exact Except.noConfusion h
  | succ f ih =>
    intro a m h
    rw [OpenAITranslatorService.retryGo] at h
    cases hTB : OpenAITranslatorService.translateBatch (prov a) texts uf with
    | ok m2 =>
      simp only [hTB, Except.ok.injEq] at h
      exact h ▸ translateBatch_ok_shape _ _ _ _ hTB
    | error e =>
      simp only [hTB] at h
      by_cases hr : OpenAITranslatorService.isRetryableError e = true
      · rw [if_pos hr] at h
        exact ih _ _ h
      · rw [if_neg hr] at h
        cases h

theorem retryGo_allfail (prov : Nat → Except OpenAITranslatorService.JsError Str)
    (texts : List Str) (uf : Bool)
    (hfail : ∀ a, OpenAITranslatorService.respFails (prov a) = true) :
    ∀ (f a : Nat), ∃ e, OpenAITranslatorService.retryGo prov texts uf a f = .error e := by
  intro f
  induction f with
  | zero =>
    intro a
    obtain ⟨e, he⟩ := translateBatch_fails (prov a) texts uf (hfail a)
    exact ⟨e, by rw [OpenAITranslatorService.retryGo, he]⟩
  | succ f ih =>
    intro a
    obtain ⟨e, he⟩ := translateBatch_fails (prov a) texts uf (hfail a)
    by_cases hr : OpenAITranslatorService.isRetryableError e = true
    · obtain ⟨e2, he2⟩ := ih (a + 1)
      refine ⟨e2, ?_⟩
      rw [OpenAITranslatorService.retryGo]
      simp only [he, hr, if_true]
      exact he2
    · refine ⟨e, ?_⟩
      rw [OpenAITranslatorService.retryGo]
      simp [he, hr]

theorem wr_true_spec (prov : Nat → Except OpenAITranslatorService.JsError Str)
    (texts : List Str) (mr : Nat) :
    ∃ m, OpenAITranslatorService.translateBatchWithRetry prov texts true mr = .ok m ∧
      (∀ t ∈ texts, t ∈ mapKeys m) ∧ (∀ t, t ∈ mapKeys m → t ∈ texts) ∧ (mapKeys m).Nodup := by
  rw [OpenAITranslatorService.translateBatchWithRetry]
  cases hr : OpenAITranslatorService.retryGo prov texts true 0 mr with
  | ok m =>
    obtain ⟨lines, rfl⟩ := retryGo_ok_shape prov texts true mr 0 m hr
    refine ⟨_, rfl, ?_, ?_, ?_⟩
    · intro t ht
      exact buildBatchMap_keys_complete lines texts t 0 [] ht
    · intro t ht
      rcases buildBatchMap_keys_sub true lines texts t 0 [] ht with h | h
      · exact h
      · simp [mapKeys] at h
    · exact buildBatchMap_keys_nodup true lines texts 0 [] (by simp [mapKeys])
  | error e =>
    refine ⟨OpenAITranslatorService.fallbackMap texts, by simp, ?_, ?_, fallbackMap_keys_nodup texts⟩
    · intro t ht
      exact (mem_mapKeys_fallbackMap texts t).mpr ht
    · intro t ht
      exact (mem_mapKeys_fallbackMap texts t).mp ht

theorem wr_allfail (prov : Nat → Except OpenAITranslatorService.JsError Str)
    (texts : List Str) (mr : Nat)
    (hfail : ∀ a, OpenAITranslatorService.respFails (prov a) = true) :
    OpenAITranslatorService.translateBatchWithRetry prov texts true mr =
      .ok (OpenAITranslatorService.fallbackMap texts) := by
  obtain ⟨e, he⟩ := retryGo_allfail prov texts true hfail mr 0
  rw [OpenAITranslatorService.translateBatchWithRetry]
  simp [he]

theorem forcedResult_keys (prov : Nat → Except OpenAITranslatorService.JsError Str)
    (texts : List Str) (mr : Nat) :
    OpenAITranslatorService.translateBatchWithRetry prov texts true mr =
      .ok (OpenAITranslatorService.forcedResult
        (OpenAITranslatorService.translateBatchWithRetry prov texts true mr)) ∧
    (∀ t ∈ texts, t ∈ mapKeys (OpenAITranslatorService.forcedResult
        (OpenAITranslatorService.translateBatchWithRetry prov texts true mr))) ∧
    (∀ t, t ∈ mapKeys (OpenAITranslatorService.forcedResult
        (OpenAITranslatorService.translateBatchWithRetry prov texts true mr)) → t ∈ texts) ∧
    (mapKeys (OpenAITranslatorService.forcedResult
        (OpenAITranslatorService.translateBatchWithRetry prov texts true mr))).Nodup := by
  obtain ⟨m, hm, h1, h2, h3⟩ := wr_true_spec prov texts mr
  rw [hm]
  exact ⟨rfl, h1, h2, h3⟩

theorem processBatches_true (prov : Nat → Nat → Except OpenAITranslatorService.JsError Str)
    (mr : Nat) :
    ∀ (bs : List (List Str)) (i : Nat),
      OpenAITranslatorService.processBatches prov true mr bs i =
        .ok (OpenAITranslatorService.batchResultsList prov mr bs i) := by
  intro bs
  induction bs with
  | nil => intro i; rfl
  | cons b bs ih =>
    intro i
    obtain ⟨m, hm, _, _, _⟩ := wr_true_spec (prov i) b mr
    rw [OpenAITranslatorService.processBatches, OpenAITranslatorService.batchResultsList,
      hm, ih (i + 1)]
    simp [OpenAITranslatorService.forcedResult, hm]

theorem batchResultsList_length (prov : Nat → Nat → Except OpenAITranslatorService.JsError Str)
    (mr : Nat) :
    ∀ (bs : List (List Str)) (i : Nat),
      (OpenAITranslatorService.batchResultsList prov mr bs i).length = bs.length := by
  intro bs
  induction bs with
  | nil => intro i; rfl
  | cons b bs ih =>
    intro i
    simp [OpenAITranslatorService.batchResultsList, ih (i + 1)]

theorem batchResultsList_get (prov : Nat → Nat → Except OpenAITranslatorService.JsError Str)
    (mr : Nat) :
    ∀ (bs : List (List Str)) (i j : Nat) (hj : j < bs.length)
      (hj2 : j < (OpenAITranslatorService.batchResultsList prov mr bs i).length),
      (OpenAITranslatorService.batchResultsList prov mr bs i).get ⟨j, hj2⟩ =
        OpenAITranslatorService.forcedResult
          (OpenAITranslatorService.translateBatchWithRetry (prov (i + j)) (bs.get ⟨j, hj⟩) true mr) := by
  intro bs
  induction bs with
  | nil => intro i j hj; exact absurd hj (by simp)
  | cons b bs ih =>
    intro i j hj hj2
    cases j with
    | zero => simp [OpenAITranslatorService.batchResultsList]
    | succ j2 =>
      have hlen : j2 < (OpenAITranslatorService.batchResultsList prov mr bs (i + 1)).length := by
        rw [batchResultsList_length]
        simpa using Nat.lt_of_succ_lt_succ hj
      have := ih (i + 1) j2 (by simpa using Nat.lt_of_succ_lt_succ hj) hlen
      have harith : i + 1 + j2 = i + (j2 + 1) := by omega
      rw [harith] at this
      simpa [OpenAITranslatorService.batchResultsList] using this

theorem batchResultsList_allfail (prov : Nat → Nat → Except OpenAITranslatorService.JsError Str)
    (mr : Nat) (hfail : ∀ k a, OpenAITranslatorService.respFails (prov k a) = true) :
    ∀ (bs : List (List Str)) (i : Nat),
      OpenAITranslatorService.batchResultsList prov mr bs i =
        bs.map OpenAITranslatorService.fallbackMap := by
  intro bs
  induction bs with
  | nil => intro i; rfl
  | cons b bs ih =>
    intro i
    rw [OpenAITranslatorService.batchResultsList, wr_allfail (prov i) b mr (hfail i), ih (i + 1)]
    simp [OpenAITranslatorService.forcedResult]

theorem batchResultsList_mem_key (prov : Nat → Nat → Except OpenAITranslatorService.JsError Str)
    (mr : Nat) (t : Str) :
    ∀ (bs : List (List Str)) (i : Nat), (∃ b ∈ bs, t ∈ b) →
      ∃ m ∈ OpenAITranslatorService.batchResultsList prov mr bs i, t ∈ mapKeys m := by
  intro bs
  induction bs with
  | nil =>
    intro i h
    obtain ⟨b, hb, _⟩ := h
    simp at hb
  | cons b0 bs ih =>
    intro i h
    obtain ⟨b, hb, htb⟩ := h
    rcases List.mem_cons.mp hb with rfl | hbs
    · refine ⟨_, List.mem_cons_self _ _, ?_⟩
      exact (forcedResult_keys (prov i) b mr).2.1 t htb
    · obtain ⟨m, hm, hk⟩ := ih (i + 1) ⟨b, hbs, htb⟩
      exact ⟨m, by simpa [OpenAITranslatorService.batchResultsList] using Or.inr hm, hk⟩

/-! ### Lemmas: chunking -/

theorem chunkAux_flatten (n : Nat) :
    ∀ (l : List Str) (cap : Nat) (cur : List Str),
      (OpenAITranslatorService.chunkAux n cap cur l).flatten = cur.reverse ++ l := by
  intro l
  induction l with
  | nil =>
    intro cap cur
    rw [OpenAITranslatorService.chunkAux]
    by_cases h : cur.isEmpty
    · have : cur = [] := by simpa [List.isEmpty_iff] using h
      simp [this, h]
    · simp [h]
  | cons x xs ih =>
    intro cap cur
    rw [OpenAITranslatorService.chunkAux]
    by_cases h : cap ≤ 1
    · rw [if_pos h]
      simp [ih n []]
    · rw [if_neg h]
      rw [ih (cap - 1) (x :: cur)]
      simp

theorem chunkList_flatten (n : Nat) (l : List Str) :
    (OpenAITranslatorService.chunkList n l).flatten = l := by
  rw [OpenAITranslatorService.chunkList, chunkAux_flatten]
  rfl

/-! ### The main behaviour of `execute` under fallback -/

theorem merge_idmaps_lookup (ls : List (List Str)) (t : Str) :
    ∀ (acc : MapSL), ((∃ l ∈ ls, t ∈ l) ∨ mapLookup acc t = some t) →
      mapLookup ((ls.map OpenAITranslatorService.fallbackMap).foldl
        OpenAITranslatorService.mergeInto acc) t = some t := by
  induction ls with
  | nil =>
    intro acc h
    rcases h with ⟨l, hl, _⟩ | h
    · simp at hl
    · exact h
  | cons l0 ls ih =>
    intro acc h
    rw [List.map_cons, List.foldl_cons]
    have hstep : mapLookup (OpenAITranslatorService.mergeInto acc
        (OpenAITranslatorService.fallbackMap l0)) t =
        if t ∈ l0 then some t else mapLookup acc t := by
      rw [mapLookup_mergeInto_of_nodup _ _ _ (fallbackMap_keys_nodup l0), fallbackMap_lookup]
      by_cases ht : t ∈ l0 <;> simp [ht]
    apply ih
    by_cases ht0 : t ∈ l0
    · right
      rw [hstep]
      simp [ht0]
    · rcases h with ⟨l, hl, htl⟩ | hacc
      · rcases List.mem_cons.mp hl with rfl | hls
        · exact absurd htl ht0
        · exact Or.inl ⟨l, hls, htl⟩
      · right
        rw [hstep, if_neg ht0]
        exact hacc

theorem hl_execute_spec (prov : Nat → Nat → Except OpenAITranslatorService.JsError Str)
    (texts : List Str) (mr : Nat) :
    ∃ m, OpenAITranslatorService.execute prov texts true mr = .ok m
      ∧ (∀ t ∈ texts, (mapLookup m t).isSome)
      ∧ ((∀ k a, OpenAITranslatorService.respFails (prov k a) = true) →
          ∀ t ∈ texts, mapLookup m t = some t) := by
  by_cases hE : texts.isEmpty
  · have hnil : texts = [] := by simpa [List.isEmpty_iff] using hE
    subst hnil
    exact ⟨[], by simp [OpenAITranslatorService.execute], by simp, by simp⟩
  · refine ⟨OpenAITranslatorService.mergeMaps
      (OpenAITranslatorService.batchResultsList prov mr (OpenAITranslatorService.chunkList 20 texts) 0),
      ?_, ?_, ?_⟩
    · rw [OpenAITranslatorService.execute, if_neg hE, processBatches_true]
    · intro t ht
      have hmem : ∃ b ∈ OpenAITranslatorService.chunkList 20 texts, t ∈ b :=
        List.mem_flatten.mp (by rw [chunkList_flatten]; exact ht)
      obtain ⟨m2, hm2, hk⟩ := batchResultsList_mem_key prov mr t _ 0 hmem
      exact foldl_mergeInto_isSome _ t [] (Or.inr ⟨m2, hm2, hk⟩)
    · intro hfail t ht
      rw [OpenAITranslatorService.mergeMaps, batchResultsList_allfail prov mr hfail]
      apply merge_idmaps_lookup
      left
      exact List.mem_flatten.mp (by rw [chunkList_flatten]; exact ht)

/-! ### Claims about the resilient batch translation client -/

/-- C1 (amended): with fallback enabled (the default), `execute` returns a
map containing an entry for every input value — in particular a provider
reply with fewer lines than a batch's input count still yields a full-sized
map, the entries beyond the shorter length filled by fallback.  (As
originally stated the claim fails with fallback disabled: a short but
non-empty reply silently drops the uncovered values instead of raising
`TranslationError`; see the counterexample.) -/
theorem claim_C1 (prov : Nat → Nat → Except OpenAITranslatorService.JsError Str)
    (texts : List Str) (mr : Nat) :
    ∃ m, OpenAITranslatorService.execute prov texts true mr = .ok m
      ∧ ∀ t ∈ texts, (mapLookup m t).isSome := by
  obtain ⟨m, h1, h2, _⟩ := hl_execute_spec prov texts mr
  exact ⟨m, h1, h2⟩

/-- Witness for C1: two values, a single-line reply; both values are mapped. -/
theorem claim_C1_witness :
    ∃ m, OpenAITranslatorService.execute (fun _ _ => Except.ok ['x']) [['あ'], ['い']] true 3 =
        .ok m
      ∧ (mapLookup m ['あ']).isSome ∧ (mapLookup m ['い']).isSome := by
  obtain ⟨m, hm, h2⟩ := claim_C1 (fun _ _ => Except.ok ['x']) [['あ'], ['い']] 3
  exact ⟨m, hm, h2 _ (by simp), h2 _ (by simp)⟩

/-- Counterexample to C1 as stated: with fallback disabled and a one-line
reply for two inputs, `execute` neither returns an entry for every input
value nor raises a `TranslationError` — it resolves with a map missing the
second value. -/
theorem claim_C1_counterexample :
    OpenAITranslatorService.execute (fun _ _ => Except.ok ['x']) [['a'], ['b']] false 3 =
      .ok [(['a'], ['x'])]
    ∧ mapLookup [(['a'], ['x'])] ['b'] = none := ⟨rfl, rfl⟩

/-- C10: with fallback enabled (the default configuration), `execute` never
rejects: it always resolves with a map, and when every provider call fails
(rejections, or replies with empty content) every input value maps to
itself. -/
theorem claim_C10 (prov : Nat → Nat → Except OpenAITranslatorService.JsError Str)
    (texts : List Str) (mr : Nat) :
    ∃ m, OpenAITranslatorService.execute prov texts true mr = .ok m
      ∧ ((∀ k a, OpenAITranslatorService.respFails (prov k a) = true) →
          ∀ t ∈ texts, mapLookup m t = some t) := by
  obtain ⟨m, h1, _, h3⟩ := hl_execute_spec prov texts mr
  exact ⟨m, h1, h3⟩

/-- Witness for C10: a provider that always rejects; the single value maps
to itself and no error escapes. -/
theorem claim_C10_witness :
    ∃ m, OpenAITranslatorService.execute
        (fun _ _ => Except.error ⟨"Error".toList, "boom".toList, none⟩) [['あ']] true 0 = .ok m
      ∧ mapLookup m ['あ'] = some ['あ'] := by
  obtain ⟨m, hm, h⟩ := claim_C10
    (fun _ _ => Except.error ⟨"Error".toList, "boom".toList, none⟩) [['あ']] 0
  exact ⟨m, hm, h (fun _ _ => rfl) _ (by simp)⟩

/-- C6: if one batch exhausts its retries while fallback is enabled, every
value in that batch maps to itself in the returned map, and every other
batch's values map exactly as that batch's own provider result maps them —
a partial failure never aborts or alters unrelated batches.  (Values are
assumed pairwise distinct, as produced by the deduplicating extractor.) -/
theorem claim_C6 (prov : Nat → Nat → Except OpenAITranslatorService.JsError Str)
    (texts : List Str) (mr k : Nat)
    (hk : k < (OpenAITranslatorService.chunkList 20 texts).length)
    (hnd : texts.Nodup)
    (hfail : ∀ a, OpenAITranslatorService.respFails (prov k a) = true) :
    ∃ m, OpenAITranslatorService.execute prov texts true mr = .ok m
      ∧ (∀ t ∈ (OpenAITranslatorService.chunkList 20 texts).get ⟨k, hk⟩,
          mapLookup m t = some t)
      ∧ (∀ (j : Nat) (hj : j < (OpenAITranslatorService.chunkList 20 texts).length), j ≠ k →
          ∀ t ∈ (OpenAITranslatorService.chunkList 20 texts).get ⟨j, hj⟩,
            mapLookup m t =
              mapLookup (OpenAITranslatorService.forcedResult
                (OpenAITranslatorService.translateBatchWithRetry (prov j)
                  ((OpenAITranslatorService.chunkList 20 texts).get ⟨j, hj⟩) true mr)) t) := by
  have hE : ¬texts.isEmpty = true := by
    intro hE
    have hnil : texts = [] := by simpa [List.isEmpty_iff] using hE
    rw [hnil] at hk
    simp [OpenAITranslatorService.chunkList, OpenAITranslatorService.chunkAux] at hk
  refine ⟨OpenAITranslatorService.mergeMaps
    (OpenAITranslatorService.batchResultsList prov mr
      (OpenAITranslatorService.chunkList 20 texts) 0), ?_, ?_, ?_⟩
  case _ => rw [OpenAITranslatorService.execute, if_neg hE, processBatches_true]
  all_goals
    have hflat : (OpenAITranslatorService.chunkList 20 texts).flatten = texts :=
      chunkList_flatten 20 texts
    have hfnd : (OpenAITranslatorService.chunkList 20 texts).flatten.Nodup := by
      rw [hflat]; exact hnd
    have hpw : List.Pairwise List.Disjoint (OpenAITranslatorService.chunkList 20 texts) :=
      (List.nodup_flatten.mp hfnd).2
    have hdisj : ∀ (j j2 : Nat) (hj : j < (OpenAITranslatorService.chunkList 20 texts).length)
        (hj2 : j2 < (OpenAITranslatorService.chunkList 20 texts).length), j ≠ j2 →
        ∀ t2, t2 ∈ (OpenAITranslatorService.chunkList 20 texts).get ⟨j, hj⟩ →
          t2 ∉ (OpenAITranslatorService.chunkList 20 texts).get ⟨j2, hj2⟩ := by
      intro j j2 hj hj2 hne t2 ht2 ht2b
      rcases Nat.lt_or_ge j j2 with hlt | hge
      · exact (List.pairwise_iff_get.mp hpw ⟨j, hj⟩ ⟨j2, hj2⟩ hlt) ht2 ht2b
      · have hlt2 : j2 < j := by omega
        exact (List.pairwise_iff_get.mp hpw ⟨j2, hj2⟩ ⟨j, hj⟩ hlt2) ht2b ht2
    have hbrllen : (OpenAITranslatorService.batchResultsList prov mr
        (OpenAITranslatorService.chunkList 20 texts) 0).length =
        (OpenAITranslatorService.chunkList 20 texts).length :=
      batchResultsList_length prov mr _ 0
    have hget : ∀ (j : Nat) (hj : j < (OpenAITranslatorService.chunkList 20 texts).length)
        (hj2 : j < (OpenAITranslatorService.batchResultsList prov mr
          (OpenAITranslatorService.chunkList 20 texts) 0).length),
        (OpenAITranslatorService.batchResultsList prov mr
          (OpenAITranslatorService.chunkList 20 texts) 0).get ⟨j, hj2⟩ =
          OpenAITranslatorService.forcedResult
            (OpenAITranslatorService.translateBatchWithRetry (prov j)
              ((OpenAITranslatorService.chunkList 20 texts).get ⟨j, hj⟩) true mr) := by
      intro j hj hj2
      have := batchResultsList_get prov mr (OpenAITranslatorService.chunkList 20 texts) 0 j hj hj2
      simpa using this
    have hothers : ∀ (i : Nat) (hi : i < (OpenAITranslatorService.chunkList 20 texts).length),
        ∀ t, t ∈ (OpenAITranslatorService.chunkList 20 texts).get ⟨i, hi⟩ →
        ∀ (j : Nat) (hj2 : j < (OpenAITranslatorService.batchResultsList prov mr
          (OpenAITranslatorService.chunkList 20 texts) 0).length), j ≠ i →
          t ∉ mapKeys ((OpenAITranslatorService.batchResultsList prov mr
            (OpenAITranslatorService.chunkList 20 texts) 0).get ⟨j, hj2⟩) := by
      intro i hi t ht j hj2 hji hkey
      have hj : j < (OpenAITranslatorService.chunkList 20 texts).length := by
        rw [← hbrllen]; exact hj2
      rw [hget j hj hj2] at hkey
      have htj : t ∈ (OpenAITranslatorService.chunkList 20 texts).get ⟨j, hj⟩ :=
        (forcedResult_keys (prov j) _ mr).2.2.1 t hkey
      exact hdisj j i hj hi hji t htj ht
  · -- the failed batch maps each of its values to itself
    intro t ht
    have hk2 : k < (OpenAITranslatorService.batchResultsList prov mr
        (OpenAITranslatorService.chunkList 20 texts) 0).length := by
      rw [hbrllen]; exact hk
    have hbk : (OpenAITranslatorService.batchResultsList prov mr
        (OpenAITranslatorService.chunkList 20 texts) 0).get ⟨k, hk2⟩ =
        OpenAITranslatorService.fallbackMap
          ((OpenAITranslatorService.chunkList 20 texts).get ⟨k, hk⟩) := by
      rw [hget k hk hk2, wr_allfail (prov k) _ mr hfail]
      rfl
    have hmain := foldl_mergeInto_get
      (OpenAITranslatorService.batchResultsList prov mr
        (OpenAITranslatorService.chunkList 20 texts) 0) t k hk2 [] rfl
      (by rw [hbk]; exact fallbackMap_keys_nodup _)
      (fun j hj2 hji => hothers k hk t ht j hj2 hji)
    rw [OpenAITranslatorService.mergeMaps, hmain, hbk, fallbackMap_lookup, if_pos ht]
  · -- unrelated batches keep their own provider results
    intro j hj hjk t ht
    have hj2 : j < (OpenAITranslatorService.batchResultsList prov mr
        (OpenAITranslatorService.chunkList 20 texts) 0).length := by
      rw [hbrllen]; exact hj
    have hmain := foldl_mergeInto_get
      (OpenAITranslatorService.batchResultsList prov mr
        (OpenAITranslatorService.chunkList 20 texts) 0) t j hj2 [] rfl
      (by rw [hget j hj hj2]; exact (forcedResult_keys (prov j) _ mr).2.2.2)
      (fun j3 hj3 hji => hothers j hj t ht j3 hj3 hji)
    rw [OpenAITranslatorService.mergeMaps, hmain, hget j hj hj2]

/-- Witness for C6: twenty-one distinct values (two batches); batch 1
always times out, batch 0 succeeds with twenty lines. -/
theorem claim_C6_witness :
    ∃ m, OpenAITranslatorService.execute witProvC6 witTexts true 3 = .ok m
      ∧ (∀ t ∈ (OpenAITranslatorService.chunkList 20 witTexts).get ⟨1, by decide⟩,
          mapLookup m t = some t)
      ∧ (∀ (j : Nat) (hj : j < (OpenAITranslatorService.chunkList 20 witTexts).length), j ≠ 1 →
          ∀ t ∈ (OpenAITranslatorService.chunkList 20 witTexts).get ⟨j, hj⟩,
            mapLookup m t =
              mapLookup (OpenAITranslatorService.forcedResult
                (OpenAITranslatorService.translateBatchWithRetry (witProvC6 j)
                  ((OpenAITranslatorService.chunkList 20 witTexts).get ⟨j, hj⟩) true 3)) t) :=
  claim_C6 witProvC6 witTexts 3 1 (by decide) (by decide) (fun _ => rfl)

/-! ### Claims about the KV cache -/

/-- C2: a cache read that finds a well-formed entry returns a hit, issues
no write when less than the refresh interval has elapsed since
`lastUsedAt`, and when at least the interval has elapsed issues exactly one
(fire-and-forget) rewrite carrying `lastUsedAt = now`, the unchanged
`translatedText` and `createdAt`, and the full TTL. -/
theorem claim_C2 (st : Str → KvCacheService.KvGetOutcome) (nowMs : Int)
    (cfg : KvCacheService.KvConfig) (key : Str) (e : KvCacheService.CacheEntry)
    (hfound : st key = .found e) :
    (KvCacheService.execute st nowMs cfg key).1 = some ⟨e.translatedText, true⟩
    ∧ ((((nowMs : ℚ) - (e.lastUsedAt : ℚ)) / 1000 <
          (cfg.lastUsedAtUpdateIntervalSeconds : ℚ)) →
        (KvCacheService.execute st nowMs cfg key).2 = [])
    ∧ (((cfg.lastUsedAtUpdateIntervalSeconds : ℚ) ≤
          ((nowMs : ℚ) - (e.lastUsedAt : ℚ)) / 1000) →
        (KvCacheService.execute st nowMs cfg key).2 =
          [⟨key, ⟨e.translatedText, nowMs, e.createdAt⟩, cfg.ttlSeconds⟩]) := by
  cases e with
  | mk tt lu ca =>
    refine ⟨?_, ?_, ?_⟩
    · simp [KvCacheService.execute, hfound]
    · intro h
      simp only [KvCacheService.execute, hfound]
      rw [if_neg (not_le.mpr h)]
    · intro h
      simp only [KvCacheService.execute, hfound]
      rw [if_pos h]

/-- Witness for C2: an entry last used at epoch 0 read two days later with
the default configuration: hit, and one refresh write with the original
`createdAt` and the 30-day TTL. -/
theorem claim_C2_witness :
    (KvCacheService.execute (fun _ => .found ⟨['h'], 0, 5⟩) 172800000
        KvCacheService.defaultKvConfig ("k".toList)).1 = some ⟨['h'], true⟩
    ∧ (KvCacheService.execute (fun _ => .found ⟨['h'], 0, 5⟩) 172800000
        KvCacheService.defaultKvConfig ("k".toList)).2 =
        [⟨"k".toList, ⟨['h'], 172800000, 5⟩,
          KvCacheService.defaultKvConfig.ttlSeconds⟩] := by
  have h := claim_C2 (fun _ => .found ⟨['h'], 0, 5⟩) 172800000
    KvCacheService.defaultKvConfig ("k".toList) ⟨['h'], 0, 5⟩ rfl
  exact ⟨h.1, h.2.2 (by norm_num [KvCacheService.defaultKvConfig])⟩

/-- C9: every write issued by the read path rewrites the entry with the
same `createdAt` and the same `translatedText`, changing only `lastUsedAt`
(to now) while restarting the TTL clock — `createdAt` is never mutated by a
read. -/
theorem claim_C9 (st : Str → KvCacheService.KvGetOutcome) (nowMs : Int)
    (cfg : KvCacheService.KvConfig) (key : Str) (e : KvCacheService.CacheEntry)
    (hfound : st key = .found e) :
    ∀ p ∈ (KvCacheService.execute st nowMs cfg key).2,
      p.entry.createdAt = e.createdAt ∧ p.entry.translatedText = e.translatedText ∧
      p.entry.lastUsedAt = nowMs ∧ p.expirationTtl = cfg.ttlSeconds := by
  intro p hp
  simp only [KvCacheService.execute, hfound] at hp
  by_cases h : (cfg.lastUsedAtUpdateIntervalSeconds : ℚ) ≤
      ((nowMs : ℚ) - (e.lastUsedAt : ℚ)) / 1000
  · rw [if_pos h] at hp
    have hp2 : p = ⟨key, { e with lastUsedAt := nowMs }, cfg.ttlSeconds⟩ := by
      simpa using hp
    subst hp2
    exact ⟨rfl, rfl, rfl, rfl⟩
  · rw [if_neg h] at hp
    simp at hp

/-- Witness for C9: the concrete refresh write of the C2 scenario keeps
`createdAt = 5` and the cached text. -/
theorem claim_C9_witness :
    (⟨"k".toList, ⟨['h'], 172800000, 5⟩, KvCacheService.defaultKvConfig.ttlSeconds⟩ :
        KvCacheService.PutCall).entry.createdAt = 5
    ∧ (⟨"k".toList, ⟨['h'], 172800000, 5⟩, KvCacheService.defaultKvConfig.ttlSeconds⟩ :
        KvCacheService.PutCall).entry.translatedText = ['h']
    ∧ (⟨"k".toList, ⟨['h'], 172800000, 5⟩, KvCacheService.defaultKvConfig.ttlSeconds⟩ :
        KvCacheService.PutCall).entry.lastUsedAt = 172800000
    ∧ (⟨"k".toList, ⟨['h'], 172800000, 5⟩, KvCacheService.defaultKvConfig.ttlSeconds⟩ :
        KvCacheService.PutCall).expirationTtl = KvCacheService.defaultKvConfig.ttlSeconds :=
  claim_C9 (fun _ => .found ⟨['h'], 0, 5⟩) 172800000
    KvCacheService.defaultKvConfig ("k".toList) ⟨['h'], 0, 5⟩ rfl
    ⟨"k".toList, ⟨['h'], 172800000, 5⟩, KvCacheService.defaultKvConfig.ttlSeconds⟩
    (by
      simp only [KvCacheService.execute]
      rw [if_pos (by norm_num [KvCacheService.defaultKvConfig])]
      simp)

/-! ### Claims about the script-literal extractor -/

/-- C3 (amended): a decoded quoted literal appears in the extractor's
output exactly when it is one of the payload's scanned double- or
single-quoted literals, is nonblank after trimming, and contains at least
one Japanese character.  The backward direction shows these are the only
conditions applied: no maximum-length cap, code-shaped-substring denylist,
or script-character-ratio threshold can exclude a literal (the
counterexample extracts a literal violating all three at once). -/
theorem claim_C3 (jsCode : Str) (s : Str) :
    s ∈ JsTextExtractorService.execute jsCode ↔
      (s ∈ (JsTextExtractorService.scanQuoted '"' jsCode).map JsTextExtractorService.unescapeUnicode
        ∨ s ∈ (JsTextExtractorService.scanQuoted '\'' jsCode).map
            JsTextExtractorService.unescapeUnicode)
      ∧ jsTrim s ≠ [] ∧ containsJapanese s = true := by
  rw [JsTextExtractorService.execute, mem_dedupFirst, List.mem_filter,
    JsTextExtractorService.extractStringLiterals, List.mem_append,
    List.mem_filter, List.mem_filter]
  simp only [decide_eq_true_eq]
  tauto

/-- Witness for C3: the backward direction at a concrete payload — the
brace-containing literal of `witJsCode` meets the two real filters, so it
is extracted. -/
theorem claim_C3_witness : witBraceLiteral ∈ JsTextExtractorService.execute witJsCode :=
  (claim_C3 witJsCode witBraceLiteral).mpr (by decide)

/-- Counterexample to C3 as stated: `witLongLiteral` is 210 characters long
(at least the 200-character cap), contains braces (a code-shaped
substring), and has more than 10 non-whitespace characters of which fewer
than 20% (one in 210) are Japanese — each condition of the claim
disqualifies it — yet it is the extractor's entire output for
`witLongCode`. -/
theorem claim_C3_counterexample :
    JsTextExtractorService.execute witLongCode = [witLongLiteral]
    ∧ 200 ≤ witLongLiteral.length
    ∧ '{' ∈ witLongLiteral
    ∧ 10 < (witLongLiteral.filter (fun c => !isJsSpace c)).length
    ∧ (witLongLiteral.filter isJapaneseChar).length * 5 <
        (witLongLiteral.filter (fun c => !isJsSpace c)).length :=
  ⟨by decide, by decide, by decide, by decide, by decide⟩

/-! ### Claims about the script-literal replacer -/

theorem hexDigitChar_ascii (n : Nat) (h : n < 16) : (hexDigitChar n).toNat ≤ 127 := by
  interval_cases n <;> decide

theorem hex4_ascii (n : Nat) : ∀ c ∈ hex4 n, c.toNat ≤ 127 := by
  intro c hc
  rw [hex4] at hc
  simp only [List.mem_cons, List.not_mem_nil, or_false] at hc
  rcases hc with rfl | rfl | rfl | rfl <;>
    exact hexDigitChar_ascii _ (Nat.mod_lt _ (by norm_num))

theorem jsCharCodeAt0_ascii_of_not_gt (c : Char) (h : ¬127 < jsCharCodeAt0 c) :
    c.toNat ≤ 127 := by
  rw [jsCharCodeAt0] at h
  by_cases hc : c.toNat < 65536
  · rw [if_pos hc] at h
    omega
  · rw [if_neg hc] at h
    omega

theorem escapeForJsString_ascii (s : Str) :
    ∀ c ∈ JsTextReplacerService.escapeForJsString s, c.toNat ≤ 127 := by
  induction s with
  | nil =>
    intro c hc
    simp [JsTextReplacerService.escapeForJsString] at hc
  | cons c0 rest ih =>
    intro c hc
    rw [JsTextReplacerService.escapeForJsString] at hc
    rcases List.mem_append.mp hc with h | h
    · split_ifs at h with g1 g2 g3 g4 g5 g6 g7
      case pos =>
        simp only [List.mem_cons, List.not_mem_nil, or_false] at h
        rcases h with rfl | rfl <;> decide
      all_goals
        simp only [List.mem_cons, List.not_mem_nil, or_false] at h
      case _ => rcases h with rfl | rfl <;> decide
      case _ => rcases h with rfl | rfl <;> decide
      case _ => rcases h with rfl | rfl <;> decide
      case _ => rcases h with rfl | rfl <;> decide
      case _ => rcases h with rfl | rfl <;> decide
      case _ =>
        rcases h with rfl | rfl | h
        · decide
        · decide
        · exact hex4_ascii _ c h
      case _ =>
        subst h
        exact jsCharCodeAt0_ascii_of_not_gt c g7
    · exact ih c h

theorem escapeForJsString_eq_spec (t : Str) (h : ∀ c ∈ t, c.toNat < 65536) :
    JsTextReplacerService.escapeForJsString t = JsTextReplacerService.specEscapeForJsString t := by
  induction t with
  | nil => rfl
  | cons c rest ih =>
    have hc : c.toNat < 65536 := h c (List.mem_cons_self _ _)
    have hcc : jsCharCodeAt0 c = c.toNat := by rw [jsCharCodeAt0, if_pos hc]
    rw [JsTextReplacerService.escapeForJsString, JsTextReplacerService.specEscapeForJsString,
      List.flatMap_cons, ih (fun d hd => h d (List.mem_cons_of_mem _ hd))]
    rw [JsTextReplacerService.specEscapeForJsString, JsTextReplacerService.specCharEscape, hcc]

theorem sortEntries_perm (m : MapSL) : m.Perm (JsTextReplacerService.sortEntries m) :=
  (List.mergeSort_perm m _).symm

theorem sortEntries_sorted (m : MapSL) :
    List.Pairwise (fun a b : Str × Str => b.1.length ≤ a.1.length)
      (JsTextReplacerService.sortEntries m) := by
  have h := @List.sorted_mergeSort (Str × Str)
    (fun a b : Str × Str => decide (b.1.length ≤ a.1.length))
    (fun a b c hab hbc =>
      decide_eq_true (Nat.le_trans (of_decide_eq_true hbc) (of_decide_eq_true hab)))
    (fun a b => by
      simp only [Bool.or_eq_true, decide_eq_true_eq]
      omega)
    m
  exact h.imp (fun hd => of_decide_eq_true hd)

/-- C4: script-literal substitution folds the map entries over the payload
in an order that is a permutation of the entries sorted by non-increasing
original length (longest first); each step replaces both the
Unicode-escaped and the direct form of the original with the safely
escaped translation (`replaceAllOccurrences`); the escape maps backslash,
both quotes, newline, carriage return and tab to backslash escapes and
every other non-ASCII character to a numeric Unicode escape — exactly the
specification's mapping on BMP text — so every substituted replacement
string is entirely ASCII. -/
theorem claim_C4 (translations : MapSL) (jsCode : Str) (t : Str) :
    (∃ l, translations.Perm l
      ∧ List.Pairwise (fun a b : Str × Str => b.1.length ≤ a.1.length) l
      ∧ JsTextReplacerService.execute jsCode translations =
          l.foldl (fun acc p => JsTextReplacerService.replaceAllOccurrences acc p.1 p.2) jsCode)
    ∧ (∀ c ∈ JsTextReplacerService.escapeForJsString t, c.toNat ≤ 127)
    ∧ ((∀ c ∈ t, c.toNat < 65536) →
        JsTextReplacerService.escapeForJsString t =
          JsTextReplacerService.specEscapeForJsString t) :=
  ⟨⟨JsTextReplacerService.sortEntries translations, sortEntries_perm translations,
      sortEntries_sorted translations, rfl⟩,
    escapeForJsString_ascii t,
    escapeForJsString_eq_spec t⟩

/-- Witness for C4: a two-entry map and a translation with a quote and a
newline; the BMP hypothesis is discharged by computation. -/
theorem claim_C4_witness :
    (∃ l, ([(['短'], ['a']), (['短', '距'], ['b'])] : MapSL).Perm l
      ∧ List.Pairwise (fun a b : Str × Str => b.1.length ≤ a.1.length) l
      ∧ JsTextReplacerService.execute ['短', '距'] [(['短'], ['a']), (['短', '距'], ['b'])] =
          l.foldl (fun acc p => JsTextReplacerService.replaceAllOccurrences acc p.1 p.2)
            ['短', '距'])
    ∧ (∀ c ∈ JsTextReplacerService.escapeForJsString ['テ', '\n', '"'], c.toNat ≤ 127)
    ∧ JsTextReplacerService.escapeForJsString ['テ', '\n', '"'] =
        JsTextReplacerService.specEscapeForJsString ['テ', '\n', '"'] := by
  have h := claim_C4 [(['短'], ['a']), (['短', '距'], ['b'])] ['短', '距'] ['テ', '\n', '"']
  exact ⟨h.1, h.2.1, h.2.2 (by decide)⟩

/-! ### Claims about the document text extractor -/

theorem containsJapanese_ne_nil (v : Str) (h : containsJapanese v = true) : v ≠ [] := by
  intro hn
  subst hn
  simp [containsJapanese] at h

theorem mem_textCandidate (v0 v : Str) :
    v ∈ TextExtractorService.textCandidate v0 ↔
      jsTrim v0 = v ∧ containsJapanese v = true := by
  rw [TextExtractorService.textCandidate]
  split_ifs with h
  · simp only [List.mem_singleton]
    constructor
    · rintro rfl
      exact ⟨rfl, h.2⟩
    · rintro ⟨h1, _⟩
      exact h1.symm
  · simp only [List.not_mem_nil, false_iff]
    rintro ⟨h1, h2⟩
    exact h ⟨h1 ▸ containsJapanese_ne_nil v h2, h1 ▸ h2⟩

mutual
theorem textCand_node_iff (parent : Option Str) (n : HNode) :
    ∀ v, v ∈ TextExtractorService.textCandidatesNode parent n ↔
      ∃ pr ∈ TextExtractorService.textOccNode parent n,
        TextExtractorService.shouldTranslateTextNode pr.1 = true ∧
        jsTrim pr.2 = v ∧ containsJapanese v = true := by
  match n with
  | .text v0 =>
    intro v
    rw [TextExtractorService.textCandidatesNode, TextExtractorService.textOccNode]
    by_cases h : TextExtractorService.shouldTranslateTextNode parent = true
    · rw [if_pos h]
      simp only [List.mem_singleton, mem_textCandidate]
      constructor
      · rintro ⟨h1, h2⟩
        exact ⟨(parent, v0), rfl, h, h1, h2⟩
      · rintro ⟨pr, rfl, _, h1, h2⟩
        exact ⟨h1, h2⟩
    · rw [if_neg h]
      simp only [List.not_mem_nil, false_iff]
      rintro ⟨pr, hpr, hsh, _⟩
      rw [List.mem_singleton] at hpr
      subst hpr
      exact h hsh
  | .element tag props children =>
    intro v
    rw [TextExtractorService.textCandidatesNode, TextExtractorService.textOccNode]
    exact textCand_list_iff (some tag) children v
  | .comment v0 =>
    intro v
    rw [TextExtractorService.textCandidatesNode, TextExtractorService.textOccNode]
    simp

theorem textCand_list_iff (parent : Option Str) (ns : List HNode) :
    ∀ v, v ∈ TextExtractorService.textCandidatesList parent ns ↔
      ∃ pr ∈ TextExtractorService.textOccList parent ns,
        TextExtractorService.shouldTranslateTextNode pr.1 = true ∧
        jsTrim pr.2 = v ∧ containsJapanese v = true := by
  match ns with
  | [] =>
    intro v
    rw [TextExtractorService.textCandidatesList, TextExtractorService.textOccList]
    simp
  | n :: ns2 =>
    intro v
    rw [TextExtractorService.textCandidatesList, TextExtractorService.textOccList]
    simp only [List.mem_append]
    rw [textCand_node_iff parent n v, textCand_list_iff parent ns2 v]
    constructor
    · rintro (⟨pr, hpr, hp⟩ | ⟨pr, hpr, hp⟩)
      · exact ⟨pr, Or.inl hpr, hp⟩
      · exact ⟨pr, Or.inr hpr, hp⟩
    · rintro ⟨pr, (hpr | hpr), hp⟩
      · exact Or.inl ⟨pr, hpr, hp⟩
      · exact Or.inr ⟨pr, hpr, hp⟩
end

/-- C5 (amended): a value is extracted by the text-node pass exactly when
some text node whose DIRECT parent passes the filter (root, or neither
`script` nor an excluded tag) trims to it and it contains Japanese.  The
exclusion therefore applies to the immediate parent only, not to arbitrary
ancestors: text inside an excluded container but wrapped in a further
element is still extracted (see the counterexample). -/
theorem claim_C5 (root : HRoot) (v : Str) :
    v ∈ TextExtractorService.extractTextNodes root ↔
      ∃ pr ∈ TextExtractorService.textOccurrences root,
        TextExtractorService.shouldTranslateTextNode pr.1 = true ∧
        jsTrim pr.2 = v ∧ containsJapanese v = true := by
  rw [TextExtractorService.extractTextNodes, mem_dedupFirst,
    TextExtractorService.textOccurrences]
  exact textCand_list_iff none root.children v

/-- Counterexample to C5 as stated: the text node `日本` sits below a
`noscript` ancestor (an excluded container), inside a `div`; the extractor
still extracts it. -/
theorem claim_C5_counterexample :
    TextExtractorService.extractTextNodes witNoscriptRoot = [("日本".toList)]
    ∧ "noscript".toList ∈ EXCLUDE_TAGS := ⟨rfl, by decide⟩

/-! ### Claims about text-node substitution -/

theorem dropWhile_length_le {α : Type} (p : α → Bool) (l : List α) :
    (l.dropWhile p).length ≤ l.length := by
  induction l with
  | nil => simp
  | cons c rest ih =>
    rw [List.dropWhile_cons]
    by_cases h : p c = true
    · rw [if_pos h]
      exact Nat.le_succ_of_le ih
    · rw [if_neg h]

theorem dropWhile_eq_self_of_length {α : Type} (p : α → Bool) (l : List α)
    (h : (l.dropWhile p).length = l.length) : l.dropWhile p = l := by
  cases l with
  | nil => rfl
  | cons c rest =>
    rw [List.dropWhile_cons]
    by_cases hp : p c = true
    · exfalso
      rw [List.dropWhile_cons, if_pos hp] at h
      have := dropWhile_length_le p rest
      simp only [List.length_cons] at h
      omega
    · rw [if_neg hp]

theorem dropWhile_sat_append (p : Char → Bool) (w x : Str) (h : ∀ c ∈ w, p c = true) :
    (w ++ x).dropWhile p = x.dropWhile p := by
  induction w with
  | nil => rfl
  | cons c rest ih =>
    rw [List.cons_append, List.dropWhile_cons, if_pos (h c (List.mem_cons_self _ _))]
    exact ih (fun d hd => h d (List.mem_cons_of_mem _ hd))

theorem dropWhile_head_false {α : Type} (p : α → Bool) (c : α) (rest : List α)
    (h : (c :: rest).dropWhile p = c :: rest) : p c = false := by
  by_cases hp : p c = true
  · exfalso
    rw [List.dropWhile_cons, if_pos hp] at h
    have h2 := dropWhile_length_le p rest
    have h3 := congrArg List.length h
    simp only [List.length_cons] at h3
    omega
  · simpa using hp

theorem jsTrim_self_left (core : Str) (h : jsTrim core = core) :
    core.dropWhile isJsSpace = core := by
  apply dropWhile_eq_self_of_length
  have h1 : (jsTrim core).length ≤ (jsTrimLeft core).length := by
    rw [jsTrim]
    calc (((jsTrimLeft core).reverse.dropWhile isJsSpace).reverse).length
        = ((jsTrimLeft core).reverse.dropWhile isJsSpace).length := by
          rw [List.length_reverse]
      _ ≤ (jsTrimLeft core).reverse.length := dropWhile_length_le _ _
      _ = (jsTrimLeft core).length := by rw [List.length_reverse]
  have h2 : (jsTrimLeft core).length ≤ core.length := dropWhile_length_le _ _
  have h3 : (jsTrim core).length = core.length := by rw [h]
  rw [jsTrimLeft] at h1 h2
  omega

theorem jsTrim_self_right (core : Str) (h : jsTrim core = core) :
    core.reverse.dropWhile isJsSpace = core.reverse := by
  have hL := jsTrim_self_left core h
  have h2 : jsTrim core = (core.reverse.dropWhile isJsSpace).reverse := by
    rw [jsTrim, jsTrimLeft, hL]
  rw [h] at h2
  have := congrArg List.reverse h2
  simpa using this.symm

theorem jsTrim_padded (ws1 core ws2 : Str)
    (h1 : ∀ c ∈ ws1, isJsSpace c = true) (h2 : ∀ c ∈ ws2, isJsSpace c = true)
    (hc : jsTrim core = core) (hne : core ≠ []) :
    jsTrim (ws1 ++ core ++ ws2) = core := by
  cases core with
  | nil => exact absurd rfl hne
  | cons c0 rest =>
    have hL := jsTrim_self_left _ hc
    have hR := jsTrim_self_right _ hc
    have hhead : isJsSpace c0 = false := dropWhile_head_false _ _ _ hL
    rw [jsTrim, jsTrimLeft, List.append_assoc, dropWhile_sat_append _ _ _ h1,
      List.cons_append, List.dropWhile_cons, if_neg (by simp [hhead])]
    rw [show (c0 :: (rest ++ ws2) : Str) = (c0 :: rest) ++ ws2 from rfl,
      List.reverse_append, dropWhile_sat_append _ _ _ (fun c hcm => h2 c (by simpa using hcm)),
      hR, List.reverse_reverse]

theorem isPrefixOf_append_self (l x : Str) : l.isPrefixOf (l ++ x) = true := by
  induction l with
  | nil => simp [List.isPrefixOf]
  | cons c rest ih => simp [List.isPrefixOf, ih]

theorem isPrefixOf_cons_head (c0 : Char) (l1 : Str) (c : Char) (l2 : Str)
    (h : (c0 :: l1).isPrefixOf (c :: l2) = true) : c0 = c := by
  simp only [List.isPrefixOf, Bool.and_eq_true, beq_iff_eq] at h
  exact h.1

theorem findSplitGo_cons (pat acc : Str) (c : Char) (r : Str) :
    findSplitGo pat acc (c :: r) =
      if pat.isPrefixOf (c :: r) = true then some (acc.reverse, (c :: r).drop pat.length)
      else findSplitGo pat (c :: acc) r := rfl

theorem findSplitGo_ws (c0 : Char) (rest ws2 : Str) (hhead : isJsSpace c0 = false) :
    ∀ (w acc : Str), (∀ c ∈ w, isJsSpace c = true) →
      findSplitGo (c0 :: rest) acc (w ++ (c0 :: rest) ++ ws2) =
        some (acc.reverse ++ w, ws2) := by
  intro w
  induction w with
  | nil =>
    intro acc _
    rw [show (([] : Str) ++ (c0 :: rest) ++ ws2) = c0 :: (rest ++ ws2) by simp]
    rw [findSplitGo_cons,
      if_pos (show (c0 :: rest).isPrefixOf (c0 :: (rest ++ ws2)) = true from
        isPrefixOf_append_self (c0 :: rest) ws2)]
    rw [show (c0 :: (rest ++ ws2) : Str) = (c0 :: rest) ++ ws2 from rfl, List.drop_left]
    simp
  | cons cw w2 ih =>
    intro acc hw
    have hpre : ¬((c0 :: rest).isPrefixOf (cw :: (w2 ++ (c0 :: rest) ++ ws2)) = true) := by
      intro hp
      have := isPrefixOf_cons_head c0 rest cw _ hp
      rw [this] at hhead
      rw [hw cw (List.mem_cons_self _ _)] at hhead
      cases hhead
    rw [show ((cw :: w2) ++ (c0 :: rest) ++ ws2 : Str) =
        cw :: (w2 ++ (c0 :: rest) ++ ws2) by simp]
    rw [findSplitGo_cons, if_neg hpre]
    rw [ih (cw :: acc) (fun d hd => hw d (List.mem_cons_of_mem _ hd))]
    simp

theorem getSubstitution_cons_ne (matched before after : Str) (c : Char) (rest : Str)
    (hc : ¬(c = '$')) :
    getSubstitution matched before after (c :: rest) =
      c :: getSubstitution matched before after rest := by
  rw [getSubstitution.eq_def]
  split
  · rename_i heq
    simp at heq
  · rename_i c2 rest2 heq
    injection heq with hx1 hx2
    subst hx1
    subst hx2
    rw [if_neg hc]

theorem getSubstitution_no_dollar (matched before after rep : Str) (h : '$' ∉ rep) :
    getSubstitution matched before after rep = rep := by
  induction rep with
  | nil => rfl
  | cons c rest ih =>
    have hc : ¬(c = '$') := by
      intro he
      exact h (he ▸ List.mem_cons_self _ _)
    rw [getSubstitution_cons_ne _ _ _ _ _ hc, ih (fun hm => h (List.mem_cons_of_mem _ hm))]

/-- C7: on a text node whose value decomposes as whitespace, a trimmed core
that is a key of the translation map (with a nonblank, dollar-free
translation), and trailing whitespace, substitution under a non-excluded
parent replaces exactly the core and preserves the surrounding whitespace
runs byte for byte. -/
theorem claim_C7 (translations : MapSL) (parent : Option Str) (ws1 core ws2 t : Str)
    (h1 : ∀ c ∈ ws1, isJsSpace c = true) (h2 : ∀ c ∈ ws2, isJsSpace c = true)
    (hcore : jsTrim core = core) (hne : core ≠ [])
    (hrep : TextReplacerService.shouldReplace parent = true)
    (hlook : mapLookup translations core = some t) (ht : t ≠ []) (hdollar : '$' ∉ t) :
    TextReplacerService.replaceTextNodesNode translations parent
        (.text (ws1 ++ core ++ ws2)) = .text (ws1 ++ t ++ ws2) := by
  rw [TextReplacerService.replaceTextNodesNode, if_pos hrep]
  rw [TextReplacerService.replaceTextValue]
  rw [show jsTrim (ws1 ++ core ++ ws2) = core from jsTrim_padded ws1 core ws2 h1 h2 hcore hne]
  simp only [hlook]
  rw [if_pos ht]
  cases core with
  | nil => exact absurd rfl hne
  | cons c0 rest =>
    have hhead : isJsSpace c0 = false :=
      dropWhile_head_false _ _ _ (jsTrim_self_left _ hcore)
    rw [jsReplaceFirst, findSplit, findSplitGo_ws c0 rest ws2 hhead ws1 [] h1]
    show HNode.text (ws1 ++ getSubstitution (c0 :: rest) ws1 ws2 t ++ ws2) =
      HNode.text (ws1 ++ t ++ ws2)
    rw [getSubstitution_no_dollar _ _ _ _ hdollar]

/-- Witness for C7: the specification's own example — a text node
`"  こんにちは  "` with translation `Hello` becomes `"  Hello  "`. -/
theorem claim_C7_witness :
    TextReplacerService.replaceTextNodesNode [("こんにちは".toList, "Hello".toList)] none
        (.text ("  ".toList ++ "こんにちは".toList ++ "  ".toList)) =
      .text ("  ".toList ++ "Hello".toList ++ "  ".toList) :=
  claim_C7 [("こんにちは".toList, "Hello".toList)] none ("  ".toList) ("こんにちは".toList)
    ("  ".toList) ("Hello".toList) (by decide) (by decide) (by decide) (by decide) rfl
    (by decide) (by decide) (by decide)

/-! ### Claims about the orchestrator and the cache-aside layer -/

/-- C8: when extraction yields zero fragments the orchestrator returns the
input markup unchanged with no cache reads, cache writes, or provider
calls; and the cache-aside layer short-circuits an empty input list to an
empty map with no effects at all. -/
theorem claim_C8 (parse : Str → HRoot) (serialize : HRoot → Str)
    (jsonParse : Str → Option Json) (jsonStringify : Json → Str) (hasCache : Bool)
    (st : Str → KvCacheService.KvGetOutcome) (nowMs : Int) (cfg : KvCacheService.KvConfig)
    (prov : Nat → Nat → Except OpenAITranslatorService.JsError Str) (html lang : Str) :
    (TextExtractorService.getUniqueTexts jsonParse (parse html) = [] →
      TranslationOrchestratorService.execute parse serialize jsonParse jsonStringify hasCache
        st nowMs cfg prov html lang = .ok (html, []))
    ∧ CachedTranslatorService.execute hasCache st nowMs cfg prov [] lang = .ok ([], []) := by
  constructor
  · intro h
    rw [TranslationOrchestratorService.execute]
    simp [h]
  · rfl

/-- Witness for C8: an empty document (the parser returns an empty tree);
the orchestrator returns the markup as-is with an empty effect log, and the
cache-aside layer answers the empty list without effects. -/
theorem claim_C8_witness :
    (TranslationOrchestratorService.execute (fun _ => (⟨[]⟩ : HRoot)) (fun _ => ([] : Str))
        (fun _ => (none : Option Json)) (fun _ => ([] : Str)) true
        (fun _ => KvCacheService.KvGetOutcome.missing) 0 KvCacheService.defaultKvConfig
        (fun _ _ => Except.ok ([] : Str)) ("x".toList) ("en".toList) =
      .ok ("x".toList, []))
    ∧ CachedTranslatorService.execute true (fun _ => KvCacheService.KvGetOutcome.missing) 0
        KvCacheService.defaultKvConfig (fun _ _ => Except.ok ([] : Str)) [] ("en".toList) =
        .ok ([], []) := by
  have h := claim_C8 (fun _ => (⟨[]⟩ : HRoot)) (fun _ => ([] : Str))
    (fun _ => (none : Option Json)) (fun _ => ([] : Str)) true
    (fun _ => KvCacheService.KvGetOutcome.missing) 0 KvCacheService.defaultKvConfig
    (fun _ _ => Except.ok ([] : Str)) ("x".toList) ("en".toList)
  exact ⟨h.1 rfl, h.2⟩
